import Mathlib

/-!
Verification of the `rsa_embedded` fixed-width multi-precision integer core
(`src/rsa.c`) against its natural-language specification.

The C library works on arrays of 16-bit words (`uint16_t`), little-endian
(index 0 = least significant), all of a fixed compile-time length
`MPI_NUMBER_SIZE` (written `N` below).  We embed numbers as `List Nat`
(little-endian), with the well-formedness predicate `wf` saying every word
is `< 65536`.  Machine arithmetic on the `uint32_t`/`uint64_t` accumulators
in the C code is modelled on `Nat`; the accumulators provably stay far below
`2^32`/`2^64` for all word values `< 65536` (the per-step bounds are proved
in the spec lemmas), so no wrap-around of the wide accumulators has to be
modelled; the 16-bit truncations (`& 0xFFFF`, `>> 16`, `& 1`) of the C code
are modelled exactly as `% 65536`, `/ 65536`, `% 2`.
-/

namespace Rsa

/-- Value of a little-endian list of 16-bit words as an unsigned integer. -/
def val : List Nat → Nat
  | [] => 0
  | w :: ws => w + 65536 * val ws

/-- Every word of the list is a valid 16-bit word. -/
def wf (l : List Nat) : Prop := ∀ x ∈ l, x < 65536

instance wf_dec (l : List Nat) : Decidable (wf l) := List.decidableBAll _ l

/-!  ## The C functions, shallowly embedded

`mpi_add` (rsa.c lines 43-56): word-wise addition with carry chain in a
`uint32_t` accumulator `c`; each round stores `c & 0xFFFF` and shifts
`c >>= 16`; returns the final `c & 1`. -/

def mpi_addLoop : Nat → List Nat → List Nat → List Nat × Nat
  | c, d :: ds, s :: ss =>
      let t := c + d + s
      let r := mpi_addLoop (t / 65536) ds ss
      (t % 65536 :: r.1, r.2)
  | c, _, _ => ([], c)

def mpi_add (dest src : List Nat) : List Nat × Nat :=
  let r := mpi_addLoop 0 dest src
  (r.1, r.2 % 2)

/-- `mpi_sub` (rsa.c lines 62-75): borrow chain seeded with `c = 1`; each
round computes `c += 65535 + *dest - *src`, stores `c & 0xFFFF`, then
`c >>= 16; c &= 1`.  The final not-borrow value is discarded by the C code;
we keep it in the loop and drop it in the wrapper, like the caller does. -/

def mpi_subLoop : Nat → List Nat → List Nat → List Nat × Nat
  | c, d :: ds, s :: ss =>
      let t := c + 65535 + d - s
      let r := mpi_subLoop (t / 65536 % 2) ds ss
      (t % 65536 :: r.1, r.2)
  | c, _, _ => ([], c)

def mpi_sub (dest src : List Nat) : List Nat :=
  (mpi_subLoop 1 dest src).1

/-- `mpi_cmp` (rsa.c lines 81-94): scans both operands from the most
significant word down, returning the sign of the first nonzero per-word
difference.  We model the most-significant-first scan on reversed lists. -/

def mpi_cmpRev : List Nat → List Nat → Int
  | a :: as, b :: bs =>
      if a = b then mpi_cmpRev as bs else if b < a then 1 else -1
  | _, _ => 0

def mpi_cmp (a b : List Nat) : Int :=
  mpi_cmpRev a.reverse b.reverse

/-!  ## Basic value lemmas -/

theorem val_nil : val [] = 0 := rfl

theorem val_cons (w : Nat) (ws : List Nat) : val (w :: ws) = w + 65536 * val ws := rfl

theorem wf_nil : wf [] := by intro x hx; cases hx

theorem wf_cons {w : Nat} {ws : List Nat} : wf (w :: ws) ↔ w < 65536 ∧ wf ws := by
  constructor
  · intro h; exact ⟨h w (List.mem_cons_self _ _), fun x hx => h x (List.mem_cons_of_mem _ hx)⟩
  · rintro ⟨h1, h2⟩ x hx
    rcases List.mem_cons.1 hx with h | h
    · subst h; exact h1
    · exact h2 x h

theorem val_append (l m : List Nat) :
    val (l ++ m) = val l + 65536 ^ l.length * val m := by
  induction l with
  | nil => simp [val]
  | cons w ws ih =>
      rw [List.cons_append, val_cons, val_cons, ih, List.length_cons, pow_succ]
      ring

theorem val_lt {l : List Nat} (h : wf l) : val l < 65536 ^ l.length := by
  induction l with
  | nil => simp [val]
  | cons w ws ih =>
      rcases wf_cons.1 h with ⟨h1, h2⟩
      have hv := ih h2
      simp only [val, List.length_cons, pow_succ]
      nlinarith [hv, h1]

theorem val_inj : ∀ {l m : List Nat}, wf l → wf m → l.length = m.length →
    val l = val m → l = m := by
  intro l
  induction l with
  | nil =>
      intro m _ _ hlen _
      cases m with
      | nil => rfl
      | cons _ _ => simp at hlen
  | cons w ws ih =>
      intro m hl hm hlen hv
      cases m with
      | nil => simp at hlen
      | cons u us =>
          rcases wf_cons.1 hl with ⟨hw, hws⟩
          rcases wf_cons.1 hm with ⟨hu, hus⟩
          simp only [val] at hv
          have hword : w = u ∧ val ws = val us := by omega
          have := ih hws hus (by simpa using hlen) hword.2
          rw [hword.1, this]

theorem val_replicate_zero (n : Nat) : val (List.replicate n 0) = 0 := by
  induction n with
  | zero => rfl
  | succ k ih => simp [List.replicate_succ, val, ih]

theorem wf_replicate_zero (n : Nat) : wf (List.replicate n 0) := by
  intro x hx
  rcases List.eq_of_mem_replicate hx with rfl
  norm_num

theorem val_replicate_ffff (n : Nat) :
    val (List.replicate n 65535) = 65536 ^ n - 1 := by
  induction n with
  | zero => rfl
  | succ k ih =>
      have hk : 1 ≤ 65536 ^ k := Nat.one_le_pow _ _ (by norm_num)
      simp only [List.replicate_succ, val, ih, pow_succ]
      omega

theorem wf_append {l m : List Nat} (hl : wf l) (hm : wf m) : wf (l ++ m) := by
  intro x hx
  rcases List.mem_append.1 hx with h | h
  · exact hl x h
  · exact hm x h

theorem wf_take {l : List Nat} (h : wf l) (k : Nat) : wf (l.take k) :=
  fun x hx => h x (List.mem_of_mem_take hx)

theorem wf_drop {l : List Nat} (h : wf l) (k : Nat) : wf (l.drop k) :=
  fun x hx => h x (List.mem_of_mem_drop hx)

theorem val_take_drop (l : List Nat) (k : Nat) :
    val l = val (l.take k) + 65536 ^ (l.take k).length * val (l.drop k) := by
  conv_lhs => rw [← List.take_append_drop k l]
  exact val_append _ _

/-!  ## Specification of `mpi_add` -/

theorem mpi_addLoop_spec : ∀ (d s : List Nat) (c : Nat), d.length = s.length →
    val (mpi_addLoop c d s).1 + 65536 ^ d.length * (mpi_addLoop c d s).2
      = c + val d + val s := by
  intro d
  induction d with
  | nil =>
      intro s c hlen
      have : s = [] := List.length_eq_zero.1 hlen.symm
      subst this
      simp [mpi_addLoop, val]
  | cons d0 ds ih =>
      intro s c hlen
      cases s with
      | nil => simp at hlen
      | cons s0 ss =>
          have hlen' : ds.length = ss.length := by simpa using hlen
          have hrec := ih ss ((c + d0 + s0) / 65536) hlen'
          simp only [mpi_addLoop, val, List.length_cons, pow_succ]
          have hdm := Nat.div_add_mod (c + d0 + s0) 65536
          set r := mpi_addLoop ((c + d0 + s0) / 65536) ds ss with hr
          set P := (65536 : Nat) ^ ds.length with hP
          nlinarith [hrec, hdm]

theorem mpi_addLoop_len : ∀ (d s : List Nat) (c : Nat), d.length = s.length →
    (mpi_addLoop c d s).1.length = d.length := by
  intro d
  induction d with
  | nil => intro s c _; simp [mpi_addLoop]
  | cons d0 ds ih =>
      intro s c hlen
      cases s with
      | nil => simp at hlen
      | cons s0 ss =>
          simp only [mpi_addLoop, List.length_cons]
          rw [ih ss _ (by simpa using hlen)]

theorem mpi_addLoop_wf : ∀ (d s : List Nat) (c : Nat),
    wf (mpi_addLoop c d s).1 := by
  intro d
  induction d with
  | nil => intro s c; exact wf_nil
  | cons d0 ds ih =>
      intro s c
      cases s with
      | nil => exact wf_nil
      | cons s0 ss =>
          simp only [mpi_addLoop]
          exact wf_cons.2 ⟨Nat.mod_lt _ (by norm_num), ih ss _⟩

theorem mpi_addLoop_carry : ∀ (d s : List Nat) (c : Nat), d.length = s.length →
    wf d → wf s → c ≤ 1 → (mpi_addLoop c d s).2 ≤ 1 := by
  intro d
  induction d with
  | nil =>
      intro s c _ _ _ hc
      simp [mpi_addLoop, hc]
  | cons d0 ds ih =>
      intro s c hlen hd hs hc
      cases s with
      | nil => simp at hlen
      | cons s0 ss =>
          rcases wf_cons.1 hd with ⟨hd0, hds⟩
          rcases wf_cons.1 hs with ⟨hs0, hss⟩
          simp only [mpi_addLoop]
          exact ih ss _ (by simpa using hlen) hds hss (by omega)

/-- Main value-level spec of `mpi_add`: the stored result is the sum modulo
`65536 ^ N` and the returned carry is the overflow bit. -/
theorem mpi_add_spec {d s : List Nat} (hlen : d.length = s.length)
    (hd : wf d) (hs : wf s) :
    val (mpi_add d s).1 = (val d + val s) % 65536 ^ d.length ∧
    (mpi_add d s).2 = (val d + val s) / 65536 ^ d.length ∧
    (mpi_add d s).1.length = d.length ∧ wf (mpi_add d s).1 := by
  have hspec := mpi_addLoop_spec d s 0 hlen
  have hcar := mpi_addLoop_carry d s 0 hlen hd hs (by norm_num)
  have hlen1 := mpi_addLoop_len d s 0 hlen
  have hwf1 := mpi_addLoop_wf d s 0
  have hvlt : val (mpi_addLoop 0 d s).1 < 65536 ^ d.length := by
    have := val_lt hwf1
    rwa [hlen1] at this
  have hmod2 : (mpi_addLoop 0 d s).2 % 2 = (mpi_addLoop 0 d s).2 :=
    Nat.mod_eq_of_lt (by omega)
  have hPpos : 0 < 65536 ^ d.length := pow_pos (by norm_num) _
  have huniq : (val d + val s) / 65536 ^ d.length = (mpi_addLoop 0 d s).2 ∧
      (val d + val s) % 65536 ^ d.length = val (mpi_addLoop 0 d s).1 :=
    (Nat.div_mod_unique hPpos).2 ⟨by omega, hvlt⟩
  refine ⟨?_, ?_, hlen1, hwf1⟩
  · show val (mpi_addLoop 0 d s).1 = (val d + val s) % 65536 ^ d.length
    exact huniq.2.symm
  · show (mpi_addLoop 0 d s).2 % 2 = (val d + val s) / 65536 ^ d.length
    rw [hmod2]
    exact huniq.1.symm

/-!  ## Specification of `mpi_sub` -/

theorem mpi_subLoop_spec : ∀ (d s : List Nat) (c : Nat), d.length = s.length →
    wf d → wf s → c ≤ 1 →
    (mpi_subLoop c d s).2 ≤ 1 ∧
    (mpi_subLoop c d s).1.length = d.length ∧ wf (mpi_subLoop c d s).1 ∧
    (val (mpi_subLoop c d s).1 : Int) + 65536 ^ d.length * (mpi_subLoop c d s).2
      = c + (65536 ^ d.length - 1) + val d - val s := by
  intro d
  induction d with
  | nil =>
      intro s c hlen _ _ hc
      have : s = [] := List.length_eq_zero.1 hlen.symm
      subst this
      refine ⟨hc, rfl, wf_nil, ?_⟩
      simp [mpi_subLoop, val]
  | cons d0 ds ih =>
      intro s c hlen hd hs hc
      cases s with
      | nil => simp at hlen
      | cons s0 ss =>
          rcases wf_cons.1 hd with ⟨hd0, hds⟩
          rcases wf_cons.1 hs with ⟨hs0, hss⟩
          have hlen' : ds.length = ss.length := by simpa using hlen
          set t := c + 65535 + d0 - s0 with ht
          have hts : s0 ≤ c + 65535 + d0 := by omega
          have htle : t ≤ 131071 := by omega
          have hc' : t / 65536 % 2 ≤ 1 := Nat.le_of_lt_succ (Nat.mod_lt _ (by norm_num))
          have hmod2 : t / 65536 % 2 = t / 65536 := Nat.mod_eq_of_lt (by omega)
          obtain ⟨hrc, hrl, hrw, hrv⟩ := ih ss (t / 65536 % 2) hlen' hds hss hc'
          refine ⟨hrc, ?_, ?_, ?_⟩
          · simp only [mpi_subLoop, List.length_cons]; rw [hrl]
          · simp only [mpi_subLoop]
            exact wf_cons.2 ⟨Nat.mod_lt _ (by norm_num), hrw⟩
          · simp only [mpi_subLoop, val_cons, List.length_cons, pow_succ]
            rw [← ht]
            have hdm := Nat.div_add_mod t 65536
            set Q := t / 65536 with hQ
            set M := t % 65536 with hM
            have hdmz : (65536 : Int) * (Q : Int) + (M : Int) = (t : Int) := by
              exact_mod_cast hdm
            have hcnz : ((Q % 2 : Nat) : Int) = (Q : Int) := Nat.cast_inj.2 hmod2
            have hti : (t : Int) = (c : Int) + 65535 + d0 - s0 := by
              rw [ht]; push_cast [hts]; ring
            rw [hcnz] at hrv
            push_cast
            linear_combination 65536 * hrv + hdmz + hti

/-- If `v = x + P * k` and `0 ≤ v < P` then `v` is `x` reduced mod `P`. -/
theorem int_emod_char {x v P k : Int} (hv : v = x + P * k)
    (h0 : 0 ≤ v) (h1 : v < P) : x % P = v := by
  calc x % P = (x + P * k) % P := (Int.add_mul_emod_self_left x P k).symm
  _ = v % P := by rw [hv]
  _ = v := Int.emod_eq_of_lt h0 h1

/-- Value-level spec of `mpi_sub`: the stored result is `dest - src` modulo
`65536 ^ N` (two's-complement wraparound). -/
theorem mpi_sub_spec {d s : List Nat} (hlen : d.length = s.length)
    (hd : wf d) (hs : wf s) :
    (val (mpi_sub d s) : Int) = ((val d : Int) - val s) % 65536 ^ d.length ∧
    (mpi_sub d s).length = d.length ∧ wf (mpi_sub d s) := by
  obtain ⟨hc, hl, hw, hv⟩ := mpi_subLoop_spec d s 1 hlen hd hs (le_refl 1)
  refine ⟨?_, hl, hw⟩
  have hvlt : (val (mpi_sub d s) : Int) < 65536 ^ d.length := by
    have := val_lt hw
    rw [hl] at this
    exact_mod_cast this
  have hvnn : (0 : Int) ≤ val (mpi_sub d s) := Int.natCast_nonneg _
  have hkey : (val (mpi_sub d s) : Int)
      = ((val d : Int) - val s) + 65536 ^ d.length * (1 - (mpi_subLoop 1 d s).2) := by
    have hv' := hv
    push_cast at hv'
    show (val (mpi_subLoop 1 d s).1 : Int) = _
    linear_combination hv'
  exact (int_emod_char hkey hvnn hvlt).symm

/-- No-underflow case: when `src ≤ dest`, `mpi_sub` computes the exact
difference. -/
theorem mpi_sub_exact {d s : List Nat} (hlen : d.length = s.length)
    (hd : wf d) (hs : wf s) (hle : val s ≤ val d) :
    val (mpi_sub d s) = val d - val s := by
  obtain ⟨hv, _, hw⟩ := mpi_sub_spec hlen hd hs
  have hdlt : val d < 65536 ^ d.length := val_lt hd
  have hdltz : (val d : Int) < (65536 : Int) ^ d.length := by exact_mod_cast hdlt
  have hmod : ((val d : Int) - val s) % 65536 ^ d.length = (val d : Int) - val s := by
    apply Int.emod_eq_of_lt
    · omega
    · omega
  rw [hmod] at hv
  omega

/-!  ## Specification of `mpi_cmp` -/

theorem mpi_cmpRev_self : ∀ (x : List Nat), mpi_cmpRev x x = 0 := by
  intro x
  induction x with
  | nil => rfl
  | cons x0 xs ih => simpa [mpi_cmpRev] using ih

theorem mpi_cmpRev_spec : ∀ (x y : List Nat), x.length = y.length →
    wf x → wf y →
    mpi_cmpRev x y = Int.sign ((val x.reverse : Int) - val y.reverse) := by
  intro x
  induction x with
  | nil =>
      intro y hlen _ _
      have : y = [] := List.length_eq_zero.1 hlen.symm
      subst this
      simp [mpi_cmpRev, val]
  | cons x0 xs ih =>
      intro y hlen hx hy
      cases y with
      | nil => simp at hlen
      | cons y0 ys =>
          rcases wf_cons.1 hx with ⟨hx0, hxs⟩
          rcases wf_cons.1 hy with ⟨hy0, hys⟩
          have hlen' : xs.length = ys.length := by simpa using hlen
          have hvx : val (x0 :: xs).reverse
              = val xs.reverse + 65536 ^ xs.length * x0 := by
            rw [List.reverse_cons, val_append, List.length_reverse]
            simp [val]
          have hvy : val (y0 :: ys).reverse
              = val ys.reverse + 65536 ^ ys.length * y0 := by
            rw [List.reverse_cons, val_append, List.length_reverse]
            simp [val]
          have hxlt : val xs.reverse < 65536 ^ xs.length := by
            have : wf xs.reverse := fun z hz => hxs z (List.mem_reverse.1 hz)
            have h := val_lt this
            rwa [List.length_reverse] at h
          have hylt : val ys.reverse < 65536 ^ ys.length := by
            have : wf ys.reverse := fun z hz => hys z (List.mem_reverse.1 hz)
            have h := val_lt this
            rwa [List.length_reverse] at h
          simp only [mpi_cmpRev]
          by_cases heq : x0 = y0
          · subst heq
            simp only [if_pos rfl]
            rw [ih ys hlen' hxs hys, hvx, hvy, hlen']
            congr 1
            push_cast
            ring
          · rw [if_neg heq]
            by_cases hlt : y0 < x0
            · rw [if_pos hlt]
              have hnat : val (y0 :: ys).reverse < val (x0 :: xs).reverse := by
                rw [hvx, hvy, hlen']
                have h1 : 65536 ^ ys.length * (y0 + 1) ≤ 65536 ^ ys.length * x0 :=
                  Nat.mul_le_mul_left _ hlt
                have h2 : 65536 ^ ys.length * (y0 + 1)
                    = 65536 ^ ys.length * y0 + 65536 ^ ys.length := by ring
                omega
              have hpos : (0 : Int) < (val (x0 :: xs).reverse : Int)
                  - val (y0 :: ys).reverse := by
                push_cast
                omega
              rw [Int.sign_eq_one_iff_pos.2 hpos]
            · rw [if_neg hlt]
              have hlt' : x0 < y0 := by omega
              have hnat : val (x0 :: xs).reverse < val (y0 :: ys).reverse := by
                rw [hvx, hvy, hlen']
                have h1 : 65536 ^ ys.length * (x0 + 1) ≤ 65536 ^ ys.length * y0 :=
                  Nat.mul_le_mul_left _ hlt'
                have h2 : 65536 ^ ys.length * (x0 + 1)
                    = 65536 ^ ys.length * x0 + 65536 ^ ys.length := by ring
                rw [hlen'] at hxlt
                omega
              have hneg : (val (x0 :: xs).reverse : Int) - val (y0 :: ys).reverse < 0 := by
                push_cast
                omega
              rw [Int.sign_eq_neg_one_iff_neg.2 hneg]

/-- Value-level spec of `mpi_cmp`: three-way sign of `val a - val b`. -/
theorem mpi_cmp_spec {a b : List Nat} (hlen : a.length = b.length)
    (ha : wf a) (hb : wf b) :
    mpi_cmp a b = Int.sign ((val a : Int) - val b) := by
  have hwx : wf a.reverse := fun z hz => ha z (List.mem_reverse.1 hz)
  have hwy : wf b.reverse := fun z hz => hb z (List.mem_reverse.1 hz)
  have := mpi_cmpRev_spec a.reverse b.reverse (by simpa using hlen) hwx hwy
  rw [mpi_cmp, this, List.reverse_reverse, List.reverse_reverse]

theorem mpi_cmp_ge {a b : List Nat} (hlen : a.length = b.length)
    (ha : wf a) (hb : wf b) : 0 ≤ mpi_cmp a b ↔ val b ≤ val a := by
  rw [mpi_cmp_spec hlen ha hb]
  rcases lt_trichotomy (val a) (val b) with h | h | h
  · rw [Int.sign_eq_neg_one_iff_neg.2 (by push_cast; omega)]
    constructor
    · intro hc; norm_num at hc
    · intro hc; omega
  · rw [show (val a : Int) - val b = 0 by push_cast; omega, Int.sign_zero]
    constructor
    · intro _; omega
    · intro _; exact le_refl 0
  · rw [Int.sign_eq_one_iff_pos.2 (by push_cast; omega)]
    constructor
    · intro _; omega
    · intro _; norm_num

/-!  ## Claim theorems for the word-level primitives -/

/-- C5: for all single-width `dest` and `src`, `mpi_add` stores
`(dest + src) mod 2^(16N)` into `dest` and returns carry 1 iff the true sum
exceeds `2^(16N) - 1` (returning 0 otherwise); in particular adding 1 to the
all-0xFFFF operand returns carry 1. -/
theorem C5_add_carry {d s : List Nat} (hN : 0 < d.length)
    (hlen : d.length = s.length) (hd : wf d) (hs : wf s) :
    val (mpi_add d s).1 = (val d + val s) % 65536 ^ d.length ∧
    ((mpi_add d s).2 = 1 ↔ 65536 ^ d.length - 1 < val d + val s) ∧
    ((mpi_add d s).2 = 0 ↔ val d + val s ≤ 65536 ^ d.length - 1) ∧
    (mpi_add (List.replicate d.length 65535)
      (1 :: List.replicate (d.length - 1) 0)).2 = 1 := by
  obtain ⟨hm, hc, _, _⟩ := mpi_add_spec hlen hd hs
  have hPpos : 0 < 65536 ^ d.length := pow_pos (by norm_num) _
  have hP1 : 1 ≤ 65536 ^ d.length := hPpos
  have hone : ∀ n : Nat, 0 < n →
      (mpi_add (List.replicate n 65535) (1 :: List.replicate (n - 1) 0)).2 = 1 := by
    intro n hn
    have hlen2 : (List.replicate n 65535).length = (1 :: List.replicate (n - 1) 0).length := by
      simp
      omega
    obtain ⟨_, hc2, _, _⟩ := mpi_add_spec hlen2
      (by intro x hx; rcases List.eq_of_mem_replicate hx with rfl; norm_num)
      (by
        intro x hx
        rcases List.mem_cons.1 hx with rfl | hx'
        · norm_num
        · rcases List.eq_of_mem_replicate hx' with rfl; norm_num)
    rw [hc2, val_replicate_ffff, val_cons, val_replicate_zero]
    have hP1' : 1 ≤ 65536 ^ n := Nat.one_le_pow _ _ (by norm_num)
    rw [show 65536 ^ n - 1 + (1 + 65536 * 0) = 65536 ^ n by omega, List.length_replicate]
    exact Nat.div_self (pow_pos (by norm_num) _)
  refine ⟨hm, ?_, ?_, hone d.length hN⟩
  · rw [hc]
    constructor
    · intro h1
      have h2 : 1 ≤ (val d + val s) / 65536 ^ d.length := by omega
      have := (Nat.one_le_div_iff hPpos).1 h2
      omega
    · intro h2
      have h3 : 65536 ^ d.length ≤ val d + val s := by omega
      have h4 := (Nat.one_le_div_iff hPpos).2 h3
      have hlt : val d + val s < 2 * 65536 ^ d.length := by
        have := val_lt hd
        have := val_lt hs
        rw [← hlen] at *
        omega
      have h5 : (val d + val s) / 65536 ^ d.length < 2 :=
        Nat.div_lt_of_lt_mul (by omega)
      omega
  · rw [hc]
    constructor
    · intro h0
      by_contra hcon
      have h3 : 65536 ^ d.length ≤ val d + val s := by omega
      have h4 := (Nat.one_le_div_iff hPpos).2 h3
      omega
    · intro h2
      exact Nat.div_eq_of_lt (by omega)

/-- Witness for C5 at a concrete input (`N = 2`). -/
theorem C5_witness :
    (0 < ([3, 5] : List Nat).length ∧ ([3, 5] : List Nat).length = ([9, 2] : List Nat).length
      ∧ wf [3, 5] ∧ wf [9, 2]) ∧
    (val (mpi_add [3, 5] [9, 2]).1 = (val [3, 5] + val [9, 2]) % 65536 ^ 2 ∧
      ((mpi_add [3, 5] [9, 2]).2 = 1 ↔ 65536 ^ 2 - 1 < val [3, 5] + val [9, 2])) := by
  have h := C5_add_carry (d := [3, 5]) (s := [9, 2]) (by norm_num) (by norm_num)
    (by decide) (by decide)
  exact ⟨⟨by norm_num, by norm_num, by decide, by decide⟩, h.1, h.2.1⟩

/-- C6: for all single-width `a`, `b` with no overflow (`mpi_add` returns
carry 0), `mpi_sub (mpi_add a b) b = a`. -/
theorem C6_add_sub_inverse {a b : List Nat} (hlen : a.length = b.length)
    (ha : wf a) (hb : wf b) (hnc : (mpi_add a b).2 = 0) :
    mpi_sub (mpi_add a b).1 b = a := by
  obtain ⟨hm, hc, hl, hw⟩ := mpi_add_spec hlen ha hb
  have hPpos : 0 < 65536 ^ a.length := pow_pos (by norm_num) _
  have hsum : val a + val b < 65536 ^ a.length := by
    rw [hc] at hnc
    by_contra hcon
    have h1 : 65536 ^ a.length ≤ val a + val b := by omega
    have h2 := (Nat.one_le_div_iff hPpos).2 h1
    omega
  have hout : val (mpi_add a b).1 = val a + val b := by
    rw [hm, Nat.mod_eq_of_lt hsum]
  have hlen2 : (mpi_add a b).1.length = b.length := by rw [hl, hlen]
  have hex := mpi_sub_exact hlen2 hw hb (by rw [hout]; omega)
  obtain ⟨_, hsl, hsw⟩ := mpi_sub_spec hlen2 hw hb
  apply val_inj hsw ha
  · rw [hsl, hl]
  · rw [hex, hout]
    omega

/-- Witness for C6 at a concrete input (`N = 2`). -/
theorem C6_witness :
    (([10, 20] : List Nat).length = ([30, 40] : List Nat).length ∧ wf [10, 20] ∧ wf [30, 40]
      ∧ (mpi_add [10, 20] [30, 40]).2 = 0) ∧
    mpi_sub (mpi_add [10, 20] [30, 40]).1 [30, 40] = [10, 20] := by
  exact ⟨⟨by norm_num, by decide, by decide, by decide⟩,
    C6_add_sub_inverse (by norm_num) (by decide) (by decide) (by decide)⟩

/-- C7: `mpi_cmp` returns the three-way sign of `a - b` as unsigned big
integers; `mpi_cmp a b` and `mpi_cmp b a` are negations of each other, and
`mpi_cmp a a = 0`. -/
theorem C7_cmp_three_way {a b : List Nat} (hlen : a.length = b.length)
    (ha : wf a) (hb : wf b) :
    mpi_cmp a b = Int.sign ((val a : Int) - val b) ∧
    mpi_cmp a b = -mpi_cmp b a ∧
    mpi_cmp a a = 0 := by
  refine ⟨mpi_cmp_spec hlen ha hb, ?_, ?_⟩
  · rw [mpi_cmp_spec hlen ha hb, mpi_cmp_spec hlen.symm hb ha,
      show (val a : Int) - val b = -((val b : Int) - val a) by ring, Int.sign_neg]
  · exact mpi_cmpRev_self _

/-- Witness for C7 at a concrete input (`N = 2`). -/
theorem C7_witness :
    (([7, 1] : List Nat).length = ([5, 2] : List Nat).length ∧ wf [7, 1] ∧ wf [5, 2]) ∧
    (mpi_cmp [7, 1] [5, 2] = Int.sign ((val [7, 1] : Int) - val [5, 2]) ∧
      mpi_cmp [7, 1] [5, 2] = -mpi_cmp [5, 2] [7, 1]) := by
  have h := C7_cmp_three_way (a := [7, 1]) (b := [5, 2]) (by norm_num) (by decide) (by decide)
  exact ⟨⟨by norm_num, by decide, by decide⟩, h.1, h.2.1⟩

/-- C10: `mpi_sub` has no precondition: it stores `(dest - src) mod 2^(16N)`
(two's-complement style wraparound), and consequently
`mpi_sub (mpi_add a b) b = a` for every `a`, `b`, even when the preceding
add overflows. -/
theorem C10_sub_wraparound {d s : List Nat} (hlen : d.length = s.length)
    (hd : wf d) (hs : wf s) :
    (val (mpi_sub d s) : Int) = ((val d : Int) - val s) % 65536 ^ d.length ∧
    mpi_sub (mpi_add d s).1 s = d := by
  refine ⟨(mpi_sub_spec hlen hd hs).1, ?_⟩
  obtain ⟨hm, _, hl, hw⟩ := mpi_add_spec hlen hd hs
  have hlen2 : (mpi_add d s).1.length = s.length := by rw [hl, hlen]
  obtain ⟨hsv, hsl, hsw⟩ := mpi_sub_spec hlen2 hw hs
  have hPpos : (0 : Int) < 65536 ^ d.length := by positivity
  have hdlt : (val d : Int) < 65536 ^ d.length := by exact_mod_cast val_lt hd
  have hkey : (val (mpi_sub (mpi_add d s).1 s) : Int) = val d := by
    rw [hsv, hl, hlen] at *
    rw [hm]
    have h1 : (((val d + val s) % 65536 ^ s.length : Nat) : Int)
        = ((val d : Int) + val s) % 65536 ^ s.length := by push_cast; ring_nf
    rw [h1, Int.sub_emod, Int.emod_emod_of_dvd _ dvd_rfl, ← Int.sub_emod,
      add_sub_cancel_right, Int.emod_eq_of_lt (by positivity) (by rw [← hlen]; exact hdlt)]
  apply val_inj hsw hd
  · rw [hsl, hl, hlen]
  · exact_mod_cast hkey

/-- Witness for C10 at a concrete input (`N = 1`, overflowing add). -/
theorem C10_witness :
    (([60000] : List Nat).length = ([60000] : List Nat).length ∧ wf [60000] ∧ wf [60000]) ∧
    ((val (mpi_sub [60000] [60000]) : Int)
        = ((val [60000] : Int) - val [60000]) % 65536 ^ 1 ∧
      mpi_sub (mpi_add [60000] [60000]).1 [60000] = [60000]) := by
  have h := C10_sub_wraparound (d := [60000]) (s := [60000]) rfl (by decide) (by decide)
  exact ⟨⟨rfl, by decide, by decide⟩, h.1, h.2⟩

/-!  ## `mpi_mulsubuuk`: the multiply-subtract-digit step

`mpi_mulsubuuk` (rsa.c lines 103-122): `*c -= *a * b` over an `(N+1)`-word
accumulator `c`, with `a` of `N` words and `b` a single word.  A product
carry chain `mcarry` and a borrow chain `nborrow` (seeded 1) run together
over the first `N` words; then the `(N+1)`th word absorbs the final
multiply carry, and the final not-borrow bit is returned. -/

def mpi_mulsubLoop : Nat → Nat → List Nat → List Nat → Nat → List Nat × Nat
  | nb, mc, c0 :: cs, a0 :: as, b =>
      let mc2 := mc + a0 * b
      let t := nb + 65535 + c0 - mc2 % 65536
      let r := mpi_mulsubLoop (t / 65536 % 2) (mc2 / 65536) cs as b
      (t % 65536 :: r.1, r.2)
  | nb, mc, c0 :: cs, [], _ =>
      let t := nb + 65535 + c0 - mc % 65536
      (t % 65536 :: cs, t / 65536 % 2)
  | nb, _, [], _, _ => ([], nb % 2)

def mpi_mulsubuuk (c : List Nat) (a : List Nat) (b : Nat) : List Nat × Nat :=
  mpi_mulsubLoop 1 0 c a b

theorem mpi_mulsubLoop_spec : ∀ (a c : List Nat) (nb mc b : Nat),
    c.length = a.length + 1 → wf c → wf a → b < 65536 → nb ≤ 1 → mc < 65536 →
    (mpi_mulsubLoop nb mc c a b).1.length = a.length + 1 ∧
    wf (mpi_mulsubLoop nb mc c a b).1 ∧
    (mpi_mulsubLoop nb mc c a b).2 ≤ 1 ∧
    ((val (mpi_mulsubLoop nb mc c a b).1 : Int)
        + 65536 ^ (a.length + 1) * (mpi_mulsubLoop nb mc c a b).2
      = (nb : Int) - 1 + 65536 ^ (a.length + 1) + val c - (val a * b + mc)) := by
  intro a
  induction a with
  | nil =>
      intro c nb mc b hlen hc hwa hb hnb hmc
      match c, hlen with
      | [c0], _ =>
        rcases wf_cons.1 hc with ⟨hc0, _⟩
        simp only [mpi_mulsubLoop]
        have hmcm : mc % 65536 = mc := Nat.mod_eq_of_lt hmc
        rw [hmcm]
        set t := nb + 65535 + c0 - mc with ht
        have hts : mc ≤ nb + 65535 + c0 := by omega
        have htle : t ≤ 131071 := by omega
        have hmod2 : t / 65536 % 2 = t / 65536 := Nat.mod_eq_of_lt (by omega)
        refine ⟨rfl, wf_cons.2 ⟨Nat.mod_lt _ (by norm_num), wf_nil⟩, by omega, ?_⟩
        rw [hmod2]
        have hdm := Nat.div_add_mod t 65536
        set Q := t / 65536 with hQ
        set M := t % 65536 with hM
        have hdmz : (65536 : Int) * (Q : Int) + (M : Int) = (t : Int) := by
          exact_mod_cast hdm
        have hti : (t : Int) = (nb : Int) + 65535 + c0 - mc := by
          rw [ht]; push_cast [hts]; ring
        simp only [val_cons, val_nil, List.length_nil, List.length_cons]
        push_cast
        linear_combination hdmz + hti
  | cons a0 as ih =>
      intro c nb mc b hlen hc hwa hb hnb hmc
      match c, hlen with
      | c0 :: cs, hlen =>
        rcases wf_cons.1 hc with ⟨hc0, hcs⟩
        rcases wf_cons.1 hwa with ⟨ha0, has⟩
        have hlen' : cs.length = as.length + 1 := by simpa using hlen
        simp only [mpi_mulsubLoop]
        set mc2 := mc + a0 * b with hmc2
        have hmc2lt : mc2 / 65536 < 65536 := by
          have : mc2 ≤ 65535 + 65535 * 65535 := by
            have := Nat.mul_le_mul (Nat.le_of_lt_succ ha0) (Nat.le_of_lt_succ hb)
            omega
          omega
        have hdm2 := Nat.div_add_mod mc2 65536
        set Q2 := mc2 / 65536 with hQ2
        set M2 := mc2 % 65536 with hM2
        set t := nb + 65535 + c0 - M2 with ht
        have hts : M2 ≤ nb + 65535 + c0 := by
          have : M2 < 65536 := Nat.mod_lt mc2 (y := 65536) (by norm_num)
          omega
        have htle : t ≤ 131071 := by
          have : M2 < 65536 := Nat.mod_lt mc2 (y := 65536) (by norm_num)
          omega
        have hc' : t / 65536 % 2 ≤ 1 := Nat.le_of_lt_succ (Nat.mod_lt _ (by norm_num))
        have hmod2 : t / 65536 % 2 = t / 65536 := Nat.mod_eq_of_lt (by omega)
        have hdm := Nat.div_add_mod t 65536
        set Q := t / 65536 with hQ
        set M := t % 65536 with hM
        obtain ⟨hrl, hrw, hrc, hrv⟩ :=
          ih cs (Q % 2) Q2 b hlen' hcs has hb hc' hmc2lt
        refine ⟨by simp [hrl], wf_cons.2 ⟨by rw [hM]; exact Nat.mod_lt _ (by norm_num), hrw⟩,
          hrc, ?_⟩
        simp only [val_cons, List.length_cons, pow_succ]
        have hdmz : (65536 : Int) * (Q : Int) + (M : Int) = (t : Int) := by
          exact_mod_cast hdm
        have hdm2z : (65536 : Int) * (Q2 : Int) + (M2 : Int) = (mc2 : Int) := by
          exact_mod_cast hdm2
        have hcnz : ((Q % 2 : Nat) : Int) = (Q : Int) := Nat.cast_inj.2 hmod2
        have hti : (t : Int) = (nb : Int) + 65535 + c0 - M2 := by
          rw [ht]; push_cast [hts]; ring
        have hmc2z : (mc2 : Int) = (mc : Int) + a0 * b := by
          rw [hmc2]; push_cast; ring
        rw [hcnz] at hrv
        push_cast
        linear_combination 65536 * hrv + hdmz + hti - hdm2z - hmc2z

/-- Full spec of `mpi_mulsubuuk`: the accumulator is updated to
`c - a*b` modulo `2^(16(N+1))`, and the return value is the *no-borrow*
flag: 1 iff `a*b ≤ c` (no underflow), 0 iff the subtraction underflowed. -/
theorem mpi_mulsubuuk_spec {c a : List Nat} {b : Nat}
    (hlen : c.length = a.length + 1) (hc : wf c) (ha : wf a) (hb : b < 65536) :
    (mpi_mulsubuuk c a b).1.length = a.length + 1 ∧
    wf (mpi_mulsubuuk c a b).1 ∧
    ((mpi_mulsubuuk c a b).2 = 1 ↔ val a * b ≤ val c) ∧
    ((mpi_mulsubuuk c a b).2 = 0 ↔ val c < val a * b) ∧
    ((val (mpi_mulsubuuk c a b).1 : Int)
       = val c - val a * b + 65536 ^ (a.length + 1) * (1 - (mpi_mulsubuuk c a b).2)) := by
  obtain ⟨hl, hw, hcar, hv⟩ := mpi_mulsubLoop_spec a c 1 0 b hlen hc ha hb (le_refl 1)
    (by norm_num)
  have hvlt : (val (mpi_mulsubLoop 1 0 c a b).1 : Int) < 65536 ^ (a.length + 1) := by
    have h1 := val_lt hw
    rw [hl] at h1
    exact_mod_cast h1
  have hvnn : (0 : Int) ≤ val (mpi_mulsubLoop 1 0 c a b).1 := Int.natCast_nonneg _
  simp only [mpi_mulsubuuk]
  push_cast at hv
  have hkey : (val (mpi_mulsubLoop 1 0 c a b).1 : Int)
      = (val c : Int) - (val a : Int) * b
        + 65536 ^ (a.length + 1) * (1 - (mpi_mulsubLoop 1 0 c a b).2) := by
    linear_combination hv
  refine ⟨hl, hw, ?_, ?_, by push_cast; linear_combination hkey⟩
  · constructor
    · intro h1
      rw [h1] at hkey
      norm_num at hkey
      have h2 : (val a : Int) * b ≤ (val c : Int) := by omega
      exact_mod_cast h2
    · intro hle
      by_contra hne
      have h0 : (mpi_mulsubLoop 1 0 c a b).2 = 0 := by omega
      rw [h0] at hkey
      norm_num at hkey
      have hlez : (val a : Int) * b ≤ (val c : Int) := by exact_mod_cast hle
      omega
  · constructor
    · intro h0
      rw [h0] at hkey
      norm_num at hkey
      have h2 : (val c : Int) < (val a : Int) * b := by omega
      exact_mod_cast h2
    · intro hlt
      by_contra hne
      have h1 : (mpi_mulsubLoop 1 0 c a b).2 = 1 := by omega
      rw [h1] at hkey
      norm_num at hkey
      have hltz : (val c : Int) < (val a : Int) * b := by exact_mod_cast hlt
      omega

/-- C4 counterexample: at `c = [0,0]`, `a = [1]`, `b = 1` the subtraction
underflows (`val c = 0 < 1 = val a * b`) yet the returned flag is 0, not 1:
the flag is *not* set on underflow, refuting the claim as stated. -/
theorem C4_counterexample :
    val [0, 0] < val [1] * 1 ∧ (mpi_mulsubuuk [0, 0] [1] 1).2 ≠ 1 := by decide

/-- C4 (amended): `mpi_mulsubuuk` updates `c` in place to `c - a*b` modulo
`2^(16(N+1))` and returns a *no-borrow* flag: the flag is clear (0) exactly
when the old value of `c` is less than `a*b` (the trial digit was too
large), and is 1 exactly when no underflow occurred; reduction detects a
bad quotient-digit guess by the flag being 0. -/
theorem C4_mulsub_borrow {c a : List Nat} {b : Nat}
    (hlen : c.length = a.length + 1) (hc : wf c) (ha : wf a) (hb : b < 65536) :
    ((mpi_mulsubuuk c a b).2 = 0 ↔ val c < val a * b) ∧
    ((mpi_mulsubuuk c a b).2 = 1 ↔ val a * b ≤ val c) ∧
    ((val (mpi_mulsubuuk c a b).1 : Int)
       = val c - val a * b + 65536 ^ (a.length + 1) * (1 - (mpi_mulsubuuk c a b).2)) := by
  obtain ⟨_, _, h1, h0, hv⟩ := mpi_mulsubuuk_spec hlen hc ha hb
  exact ⟨h0, h1, hv⟩

/-- Witness for C4 (amended) at a concrete input (`N = 1`). -/
theorem C4_witness :
    (([5, 0] : List Nat).length = ([2] : List Nat).length + 1 ∧ wf [5, 0] ∧ wf [2]
      ∧ 2 < 65536) ∧
    ((mpi_mulsubuuk [5, 0] [2] 2).2 = 0 ↔ val [5, 0] < val [2] * 2) ∧
    ((mpi_mulsubuuk [5, 0] [2] 2).2 = 1 ↔ val [2] * 2 ≤ val [5, 0]) := by
  have h := C4_mulsub_borrow (c := [5, 0]) (a := [2]) (b := 2) rfl (by decide) (by decide)
    (by norm_num)
  exact ⟨⟨rfl, by decide, by decide, by norm_num⟩, h.1, h.2.1⟩

/-!  ## `mpi_muluu`: full double-width multiplication

`mpi_muluu` (rsa.c lines 129-168): schoolbook convolution in two triangular
sweeps with a multi-word carry `mcarry` (a `uint64_t`; it stays below
`256 * 2^32` for any `MPI_NUMBER_SIZE ≤ 255`, which the `uint8_t` loop
counters force, so it never wraps).  The first sweep's iteration `k`
(`k = 0 .. N-1`) accumulates `a[i]*b[k-i]` for `i = 0..k` (the C code walks
`aa` up from `a` and `bb` down from `b+k`, i.e. the dot product of
`a.take (k+1)` with the reverse of `b.take (k+1)`); the second sweep's
iteration `j` (`j = 1 .. N-1`) accumulates `a[i]*b[N-1+j-i]` for
`i = j..N-1` (`aa` walks up from `a+j` and `bb` down from `b+N-1`, the dot
product of `a.drop j` with the reverse of `b.drop j`); the final carry word
is stored last. -/

def dot : List Nat → List Nat → Nat
  | x :: xs, y :: ys => x * y + dot xs ys
  | _, _ => 0

def muluuSweep1 : List Nat → List Nat → Nat → Nat → Nat → List Nat × Nat
  | _, _, mc, _, 0 => ([], mc)
  | a, b, mc, k, count+1 =>
      let s := mc + dot (a.take (k+1)) ((b.take (k+1)).reverse)
      let r := muluuSweep1 a b (s / 65536) (k+1) count
      (s % 65536 :: r.1, r.2)

def muluuSweep2 : List Nat → List Nat → Nat → Nat → Nat → List Nat × Nat
  | _, _, mc, _, 0 => ([], mc)
  | a, b, mc, j, count+1 =>
      let s := mc + dot (a.drop j) ((b.drop j).reverse)
      let r := muluuSweep2 a b (s / 65536) (j+1) count
      (s % 65536 :: r.1, r.2)

def mpi_muluu (a b : List Nat) : List Nat :=
  let r1 := muluuSweep1 a b 0 0 a.length
  let r2 := muluuSweep2 a b r1.2 1 (a.length - 1)
  r1.1 ++ r2.1 ++ [r2.2 % 65536]

/-!  ### Convolution sums -/

/-- `conv a b p` is the coefficient of `65536^p` in the convolution of the
word sequences `a` and `b` (out-of-range words read as 0). -/
def conv (x y : List Nat) (p : Nat) : Nat :=
  ∑ i ∈ Finset.range (p + 1), x.getD i 0 * y.getD (p - i) 0

theorem getD_eq_zero : ∀ (l : List Nat) (t : Nat), l.length ≤ t → l.getD t 0 = 0 := by
  intro l
  induction l with
  | nil => intro t _; simp [List.getD]
  | cons x xs ih =>
      intro t ht
      cases t with
      | zero => simp at ht
      | succ t' => simpa using ih t' (by simpa using ht)

theorem getD_drop : ∀ (l : List Nat) (j t : Nat), (l.drop j).getD t 0 = l.getD (j + t) 0 := by
  intro l
  induction l with
  | nil => intro j t; simp
  | cons x xs ih =>
      intro j t
      cases j with
      | zero => simp
      | succ j' =>
          have := ih j' t
          simpa [List.drop, Nat.succ_add] using this

theorem getD_take : ∀ (l : List Nat) (n t : Nat), t < n → (l.take n).getD t 0 = l.getD t 0 := by
  intro l
  induction l with
  | nil => intro n t _; simp
  | cons x xs ih =>
      intro n t ht
      cases n with
      | zero => simp at ht
      | succ m =>
          cases t with
          | zero => simp
          | succ t' => simpa using ih m t' (by omega)

theorem getD_append_left : ∀ (l l' : List Nat) (t : Nat), t < l.length →
    (l ++ l').getD t 0 = l.getD t 0 := by
  intro l
  induction l with
  | nil => intro l' t ht; simp at ht
  | cons x xs ih =>
      intro l' t ht
      cases t with
      | zero => simp
      | succ t' => simpa using ih l' t' (by simpa using ht)

theorem getD_append_last : ∀ (l : List Nat) (a : Nat),
    (l ++ [a]).getD l.length 0 = a := by
  intro l
  induction l with
  | nil => intro a; simp
  | cons x xs ih => intro a; simpa using ih a

theorem conv_nil (y : List Nat) (p : Nat) : conv [] y p = 0 := by
  unfold conv
  apply Finset.sum_eq_zero
  intro i _
  simp [List.getD]

theorem conv_cons_zero (x0 : Nat) (xs y : List Nat) :
    conv (x0 :: xs) y 0 = x0 * y.getD 0 0 := by
  simp [conv]

theorem conv_cons_succ (x0 : Nat) (xs y : List Nat) (p : Nat) :
    conv (x0 :: xs) y (p + 1) = x0 * y.getD (p + 1) 0 + conv xs y p := by
  unfold conv
  rw [Finset.sum_range_succ']
  have h1 : ∀ i, (x0 :: xs).getD (i + 1) 0 * y.getD (p + 1 - (i + 1)) 0
      = xs.getD i 0 * y.getD (p - i) 0 := by
    intro i
    have : p + 1 - (i + 1) = p - i := by omega
    rw [this]
    simp
  simp only [h1]
  have h0 : (x0 :: xs).getD 0 0 * y.getD (p + 1 - 0) 0 = x0 * y.getD (p + 1) 0 := by simp
  rw [h0]
  ring

/-- Sum of `65536^p * (p-th word)` recovers the value. -/
theorem valsum : ∀ (y : List Nat) (P : Nat), y.length ≤ P →
    ∑ p ∈ Finset.range P, 65536 ^ p * y.getD p 0 = val y := by
  intro y
  induction y with
  | nil =>
      intro P _
      apply Finset.sum_eq_zero
      intro i _
      simp [List.getD]
  | cons y0 ys ih =>
      intro P hP
      cases P with
      | zero => simp at hP
      | succ P' =>
          rw [Finset.sum_range_succ']
          have h1 : ∀ p, 65536 ^ (p + 1) * (y0 :: ys).getD (p + 1) 0
              = 65536 * (65536 ^ p * ys.getD p 0) := by
            intro p
            rw [pow_succ]
            simp
            ring
          simp only [h1]
          rw [← Finset.mul_sum, ih P' (by simpa using hP)]
          simp [val_cons]
          ring

/-- The convolution identity: summing `65536^p * conv x y p` over enough
positions gives the full product. -/
theorem conv_mul : ∀ (x : List Nat) (y : List Nat) (P : Nat),
    x.length + y.length ≤ P + 1 →
    ∑ p ∈ Finset.range P, 65536 ^ p * conv x y p = val x * val y := by
  intro x
  induction x with
  | nil =>
      intro y P _
      rw [show val [] = 0 from rfl, zero_mul]
      apply Finset.sum_eq_zero
      intro p _
      rw [conv_nil]
      ring
  | cons x0 xs ih =>
      intro y P hP
      cases P with
      | zero =>
          have hy : y = [] := by
            have : y.length = 0 := by simp at hP; omega
            exact List.length_eq_zero.1 this
          subst hy
          rw [show val [] = 0 from rfl, mul_zero]
          simp
      | succ P' =>
          rw [Finset.sum_range_succ']
          have h1 : ∀ p, 65536 ^ (p + 1) * conv (x0 :: xs) y (p + 1)
              = 65536 * (65536 ^ p * conv xs y p)
                + x0 * (65536 ^ (p + 1) * y.getD (p + 1) 0) := by
            intro p
            rw [conv_cons_succ, pow_succ]
            ring
          simp only [h1]
          rw [Finset.sum_add_distrib, ← Finset.mul_sum, ← Finset.mul_sum]
          have hxy : xs.length + y.length ≤ P' + 1 := by simp at hP; omega
          rw [ih y P' hxy]
          have hyl : y.length ≤ P' + 1 := by simp at hP; omega
          have hv : ∑ p ∈ Finset.range (P' + 1), 65536 ^ p * y.getD p 0 = val y :=
            valsum y (P' + 1) hyl
          rw [Finset.sum_range_succ'] at hv
          have h0 : 65536 ^ 0 * conv (x0 :: xs) y 0 = x0 * (65536 ^ 0 * y.getD 0 0) := by
            rw [conv_cons_zero]
            ring
          rw [h0, val_cons]
          have hgoal : 65536 * (val xs * val y)
              + x0 * (∑ p ∈ Finset.range P', 65536 ^ (p + 1) * y.getD (p + 1) 0)
              + x0 * (65536 ^ 0 * y.getD 0 0)
              = (x0 + 65536 * val xs) * val y := by
            rw [← hv]
            ring
          linarith [hgoal]

/-- Dot product against a reversed list, as an index sum. -/
theorem dot_reverse : ∀ (v u : List Nat), u.length = v.length →
    dot u v.reverse = ∑ t ∈ Finset.range u.length, u.getD t 0 * v.getD (u.length - 1 - t) 0 := by
  intro v
  induction v using List.reverseRecOn with
  | nil =>
      intro u hlen
      have : u = [] := List.length_eq_zero.1 (by simpa using hlen)
      subst this
      simp [dot]
  | append_singleton v' a ih =>
      intro u hlen
      have hlen' : u.length = v'.length + 1 := by simpa using hlen
      cases u with
      | nil => simp at hlen'
      | cons u0 us =>
          have hus : us.length = v'.length := by simpa using hlen'
          rw [List.reverse_append, List.reverse_singleton]
          show dot (u0 :: us) (a :: v'.reverse) = _
          have hdot : dot (u0 :: us) (a :: v'.reverse) = u0 * a + dot us v'.reverse := rfl
          rw [hdot, ih us hus]
          rw [show (u0 :: us).length = us.length + 1 from rfl, Finset.sum_range_succ']
          have h1 : ∀ t, t < us.length →
              (u0 :: us).getD (t + 1) 0 * (v' ++ [a]).getD (us.length + 1 - 1 - (t + 1)) 0
              = us.getD t 0 * v'.getD (us.length - 1 - t) 0 := by
            intro t ht
            have hidx : us.length + 1 - 1 - (t + 1) = us.length - 1 - t := by omega
            rw [hidx]
            have hlt : us.length - 1 - t < v'.length := by omega
            rw [List.getD_cons_succ, getD_append_left _ _ _ hlt]
          have h0 : (u0 :: us).getD 0 0 * (v' ++ [a]).getD (us.length + 1 - 1 - 0) 0
              = u0 * a := by
            have : us.length + 1 - 1 - 0 = v'.length := by omega
            rw [this]
            simp [getD_append_last]
          rw [Finset.sum_congr rfl (fun t ht => h1 t (Finset.mem_range.1 ht)), h0]
          ring

/-- A sum whose first `j` terms vanish can be shifted. -/
theorem sum_shift : ∀ (j : Nat) (f : Nat → Nat) (n : Nat), (∀ i < j, f i = 0) →
    ∑ i ∈ Finset.range (j + n), f i = ∑ t ∈ Finset.range n, f (j + t) := by
  intro j
  induction j with
  | zero => intro f n _; simp
  | succ j' ih =>
      intro f n h0
      have hsplit : j' + 1 + n = (j' + n) + 1 := by omega
      rw [hsplit, Finset.sum_range_succ']
      rw [h0 0 (by omega), add_zero]
      have hshift : ∑ i ∈ Finset.range (j' + n), f (i + 1)
          = ∑ t ∈ Finset.range n, f (j' + t + 1) :=
        ih (fun t => f (t + 1)) n (fun i hi => h0 (i + 1) (by omega))
      rw [hshift]
      apply Finset.sum_congr rfl
      intro t _
      congr 1
      omega

theorem sum_range_split (f : Nat → Nat) (m n : Nat) :
    ∑ i ∈ Finset.range (m + n), f i
      = ∑ i ∈ Finset.range m, f i + ∑ t ∈ Finset.range n, f (m + t) := by
  induction n with
  | zero => simp
  | succ n' ih =>
      rw [show m + (n' + 1) = (m + n') + 1 by omega, Finset.sum_range_succ, ih,
        Finset.sum_range_succ]
      ring

/-- The first sweep's inner dot product is the convolution coefficient `k`. -/
theorem dot_take_rev {x y : List Nat} {k : Nat} (hlen : x.length = y.length)
    (hk : k < x.length) :
    dot (x.take (k+1)) ((y.take (k+1)).reverse) = conv x y k := by
  have hxl : (x.take (k+1)).length = k + 1 := by
    rw [List.length_take]
    omega
  have hyl : (y.take (k+1)).length = k + 1 := by
    rw [List.length_take]
    omega
  rw [dot_reverse (y.take (k+1)) (x.take (k+1)) (by rw [hxl, hyl])]
  rw [hxl]
  unfold conv
  apply Finset.sum_congr rfl
  intro t ht
  have ht' : t < k + 1 := Finset.mem_range.1 ht
  rw [getD_take _ _ _ ht']
  congr 1
  have hidx : k + 1 - 1 - t = k - t := by omega
  rw [hidx]
  exact getD_take _ _ _ (by omega)

/-- The second sweep's inner dot product is the convolution coefficient
`N - 1 + j`. -/
theorem dot_drop_rev {x y : List Nat} {j : Nat} (hlen : x.length = y.length)
    (hx : 0 < x.length) (hj : j ≤ x.length) :
    dot (x.drop j) ((y.drop j).reverse) = conv x y (x.length - 1 + j) := by
  have hxl : (x.drop j).length = x.length - j := by rw [List.length_drop]
  have hyl : (y.drop j).length = x.length - j := by rw [List.length_drop]; omega
  rw [dot_reverse (y.drop j) (x.drop j) (by rw [hxl, hyl])]
  rw [hxl]
  have hL : ∑ t ∈ Finset.range (x.length - j),
        (x.drop j).getD t 0 * (y.drop j).getD (x.length - j - 1 - t) 0
      = ∑ t ∈ Finset.range (x.length - j),
        x.getD (j + t) 0 * y.getD (x.length - 1 + j - (j + t)) 0 := by
    apply Finset.sum_congr rfl
    intro t ht
    have ht' : t < x.length - j := Finset.mem_range.1 ht
    rw [getD_drop, getD_drop]
    congr 2
    omega
  rw [hL]
  unfold conv
  have hN : x.length - 1 + j + 1 = j + x.length := by omega
  rw [hN]
  have hsh : ∑ i ∈ Finset.range (j + x.length), x.getD i 0 * y.getD (x.length - 1 + j - i) 0
      = ∑ t ∈ Finset.range x.length, x.getD (j + t) 0 * y.getD (x.length - 1 + j - (j + t)) 0 :=
    sum_shift j (fun i => x.getD i 0 * y.getD (x.length - 1 + j - i) 0)
      x.length (by
        intro i hi
        have hyz : y.getD (x.length - 1 + j - i) 0 = 0 :=
          getD_eq_zero y (x.length - 1 + j - i) (by omega)
        show x.getD i 0 * y.getD (x.length - 1 + j - i) 0 = 0
        rw [hyz]
        ring)
  have hsp : ∑ t ∈ Finset.range x.length,
        x.getD (j + t) 0 * y.getD (x.length - 1 + j - (j + t)) 0
      = ∑ t ∈ Finset.range (x.length - j),
          x.getD (j + t) 0 * y.getD (x.length - 1 + j - (j + t)) 0
        + ∑ t ∈ Finset.range j,
          x.getD (j + (x.length - j + t)) 0
            * y.getD (x.length - 1 + j - (j + (x.length - j + t))) 0 := by
    have h := sum_range_split
      (fun t => x.getD (j + t) 0 * y.getD (x.length - 1 + j - (j + t)) 0)
      (x.length - j) j
    rw [show x.length - j + j = x.length by omega] at h
    exact h
  rw [hsh, hsp]
  have hz : ∑ t ∈ Finset.range j,
      x.getD (j + (x.length - j + t)) 0
        * y.getD (x.length - 1 + j - (j + (x.length - j + t))) 0 = 0 := by
    apply Finset.sum_eq_zero
    intro t _
    have hxz : x.getD (j + (x.length - j + t)) 0 = 0 :=
      getD_eq_zero x (j + (x.length - j + t)) (by omega)
    show x.getD (j + (x.length - j + t)) 0
        * y.getD (x.length - 1 + j - (j + (x.length - j + t))) 0 = 0
    rw [hxz]
    ring
  rw [hz, add_zero]

/-!  ### Sweep specifications -/

theorem muluuSweep1_spec : ∀ (count k mc : Nat) (a b : List Nat),
    a.length = b.length → k + count ≤ a.length →
    (muluuSweep1 a b mc k count).1.length = count ∧
    wf (muluuSweep1 a b mc k count).1 ∧
    val (muluuSweep1 a b mc k count).1 + 65536 ^ count * (muluuSweep1 a b mc k count).2
      = mc + ∑ j ∈ Finset.range count, 65536 ^ j * conv a b (k + j) := by
  intro count
  induction count with
  | zero =>
      intro k mc a b _ _
      refine ⟨rfl, wf_nil, ?_⟩
      simp [muluuSweep1, val]
  | succ cnt ih =>
      intro k mc a b hlen hk
      simp only [muluuSweep1]
      set s := mc + dot (a.take (k+1)) ((b.take (k+1)).reverse) with hs
      obtain ⟨hrl, hrw, hrv⟩ := ih (k+1) (s / 65536) a b hlen (by omega)
      refine ⟨by simp [hrl], wf_cons.2 ⟨Nat.mod_lt _ (by norm_num), hrw⟩, ?_⟩
      rw [val_cons]
      have hdm := Nat.div_add_mod s 65536
      have hconv : dot (a.take (k+1)) ((b.take (k+1)).reverse) = conv a b k :=
        dot_take_rev hlen (by omega)
      have hsplit : ∑ j ∈ Finset.range (cnt + 1), 65536 ^ j * conv a b (k + j)
          = conv a b k
            + 65536 * ∑ j ∈ Finset.range cnt, 65536 ^ j * conv a b (k + 1 + j) := by
        rw [Finset.sum_range_succ']
        rw [Finset.mul_sum]
        have h1 : ∀ j, 65536 ^ (j + 1) * conv a b (k + (j + 1))
            = 65536 * (65536 ^ j * conv a b (k + 1 + j)) := by
          intro j
          rw [show k + (j + 1) = k + 1 + j by omega, pow_succ]
          ring
        simp only [h1]
        simp
        ring
      rw [hsplit]
      have hp : (65536 : Nat) ^ (cnt + 1) = 65536 * 65536 ^ cnt := by
        rw [pow_succ]; ring
      rw [hp]
      set r := muluuSweep1 a b (s / 65536) (k+1) cnt with hr
      set S2 := ∑ j ∈ Finset.range cnt, 65536 ^ j * conv a b (k + 1 + j) with hS2
      set P := (65536 : Nat) ^ cnt with hP
      rw [hconv] at hs
      -- val r.1 + P * r.2 = s / 65536 + S2  and  65536 * (s/65536) + s%65536 = s
      have key := hrv
      nlinarith [key, hdm, hs]

theorem muluuSweep2_spec : ∀ (count j mc : Nat) (a b : List Nat),
    a.length = b.length → j + count ≤ a.length →
    (muluuSweep2 a b mc j count).1.length = count ∧
    wf (muluuSweep2 a b mc j count).1 ∧
    val (muluuSweep2 a b mc j count).1 + 65536 ^ count * (muluuSweep2 a b mc j count).2
      = mc + ∑ t ∈ Finset.range count, 65536 ^ t * conv a b (a.length - 1 + (j + t)) := by
  intro count
  induction count with
  | zero =>
      intro j mc a b _ _
      refine ⟨rfl, wf_nil, ?_⟩
      simp [muluuSweep2, val]
  | succ cnt ih =>
      intro j mc a b hlen hj
      simp only [muluuSweep2]
      set s := mc + dot (a.drop j) ((b.drop j).reverse) with hs
      obtain ⟨hrl, hrw, hrv⟩ := ih (j+1) (s / 65536) a b hlen (by omega)
      refine ⟨by simp [hrl], wf_cons.2 ⟨Nat.mod_lt _ (by norm_num), hrw⟩, ?_⟩
      rw [val_cons]
      have hdm := Nat.div_add_mod s 65536
      have hconv : dot (a.drop j) ((b.drop j).reverse) = conv a b (a.length - 1 + j) :=
        dot_drop_rev hlen (by omega) (by omega)
      have hsplit : ∑ t ∈ Finset.range (cnt + 1), 65536 ^ t * conv a b (a.length - 1 + (j + t))
          = conv a b (a.length - 1 + j)
            + 65536 * ∑ t ∈ Finset.range cnt, 65536 ^ t
                * conv a b (a.length - 1 + (j + 1 + t)) := by
        rw [Finset.sum_range_succ']
        rw [Finset.mul_sum]
        have h1 : ∀ t, 65536 ^ (t + 1) * conv a b (a.length - 1 + (j + (t + 1)))
            = 65536 * (65536 ^ t * conv a b (a.length - 1 + (j + 1 + t))) := by
          intro t
          rw [show a.length - 1 + (j + (t + 1)) = a.length - 1 + (j + 1 + t) by omega,
            pow_succ]
          ring
        simp only [h1]
        simp
        ring
      rw [hsplit]
      have hp : (65536 : Nat) ^ (cnt + 1) = 65536 * 65536 ^ cnt := by
        rw [pow_succ]; ring
      rw [hp]
      set r := muluuSweep2 a b (s / 65536) (j+1) cnt with hr
      set S2 := ∑ t ∈ Finset.range cnt, 65536 ^ t * conv a b (a.length - 1 + (j + 1 + t))
        with hS2
      set P := (65536 : Nat) ^ cnt with hP
      rw [hconv] at hs
      have key := hrv
      nlinarith [key, hdm, hs]

/-- Main spec of `mpi_muluu`: exactly `2N` output words whose value is the
exact product. -/
theorem mpi_muluu_spec {a b : List Nat} (hN : 0 < a.length)
    (hlen : a.length = b.length) (ha : wf a) (hb : wf b) :
    (mpi_muluu a b).length = 2 * a.length ∧ wf (mpi_muluu a b) ∧
    val (mpi_muluu a b) = val a * val b := by
  obtain ⟨h1l, h1w, h1v⟩ := muluuSweep1_spec a.length 0 0 a b hlen (by omega)
  obtain ⟨h2l, h2w, h2v⟩ :=
    muluuSweep2_spec (a.length - 1) 1 (muluuSweep1 a b 0 0 a.length).2 a b hlen (by omega)
  set N := a.length with hNdef
  set r1 := muluuSweep1 a b 0 0 N with hr1
  set r2 := muluuSweep2 a b r1.2 1 (N - 1) with hr2
  have hT : ∑ p ∈ Finset.range (N + (N - 1)), 65536 ^ p * conv a b p
      = val a * val b := by
    apply conv_mul
    omega
  rw [sum_range_split] at hT
  have hzero : ∀ j ∈ Finset.range N, 65536 ^ j * conv a b (0 + j)
      = 65536 ^ j * conv a b j := by
    intro j _
    rw [Nat.zero_add]
  rw [Finset.sum_congr rfl hzero] at h1v
  have hT2 : ∀ t ∈ Finset.range (N - 1), 65536 ^ t * conv a b (N - 1 + (1 + t))
      = 65536 ^ t * conv a b (N + t) := by
    intro t _
    congr 2
    omega
  rw [Finset.sum_congr rfl hT2] at h2v
  have hfac : ∑ t ∈ Finset.range (N - 1), 65536 ^ (N + t) * conv a b (N + t)
      = 65536 ^ N * ∑ t ∈ Finset.range (N - 1), 65536 ^ t * conv a b (N + t) := by
    rw [Finset.mul_sum]
    apply Finset.sum_congr rfl
    intro t _
    rw [pow_add]
    ring
  rw [hfac] at hT
  have h2v' : 65536 ^ N * val r2.1 + 65536 ^ N * (65536 ^ (N - 1) * r2.2)
      = 65536 ^ N * r1.2
        + 65536 ^ N * ∑ t ∈ Finset.range (N - 1), 65536 ^ t * conv a b (N + t) := by
    have h := congrArg (fun z => 65536 ^ N * z) h2v
    simp only [Nat.mul_add] at h
    exact h
  -- combine: val r1.1 + 65536^N * val r2.1 + 65536^N * (65536^(N-1) * r2.2) = val a * val b
  have hcomb : val r1.1 + 65536 ^ N * val r2.1 + 65536 ^ N * (65536 ^ (N - 1) * r2.2)
      = val a * val b := by omega
  have hprodlt : val a * val b < 65536 ^ N * 65536 ^ N := by
    have hva := val_lt ha
    have hvb := val_lt hb
    rw [← hlen] at hvb
    exact Nat.mul_lt_mul'' hva hvb
  have hpow1 : (65536 : Nat) ^ (N - 1) * 65536 = 65536 ^ N := by
    rw [← pow_succ]
    congr 1
    omega
  have hc2 : r2.2 < 65536 := by
    by_contra hcon
    have h1 : 65536 ^ N * (65536 ^ (N - 1) * 65536) ≤ 65536 ^ N * (65536 ^ (N - 1) * r2.2) :=
      Nat.mul_le_mul_left _ (Nat.mul_le_mul_left _ (by omega))
    rw [hpow1] at h1
    omega
  have hc2m : r2.2 % 65536 = r2.2 := Nat.mod_eq_of_lt hc2
  constructor
  · show (r1.1 ++ r2.1 ++ [r2.2 % 65536]).length = 2 * N
    rw [List.length_append, List.length_append, h1l, h2l]
    simp
    omega
  constructor
  · show wf (r1.1 ++ r2.1 ++ [r2.2 % 65536])
    exact wf_append (wf_append h1w h2w)
      (wf_cons.2 ⟨Nat.mod_lt _ (by norm_num), wf_nil⟩)
  · show val (r1.1 ++ r2.1 ++ [r2.2 % 65536]) = val a * val b
    rw [val_append, val_append, List.length_append, h1l, h2l, hc2m]
    rw [show val [r2.2] = r2.2 + 65536 * 0 from rfl]
    rw [← hcomb]
    rw [pow_add]
    ring

/-- C3: `mpi_muluu` writes exactly `2N` output words whose value as a
base-2^16 big integer is the exact product `a*b`; a zero operand yields the
all-zero `2N`-word product. -/
theorem C3_mul_correct {a b : List Nat} (hN : 0 < a.length)
    (hlen : a.length = b.length) (ha : wf a) (hb : wf b) :
    (mpi_muluu a b).length = 2 * a.length ∧
    val (mpi_muluu a b) = val a * val b ∧
    ((val a = 0 ∨ val b = 0) → mpi_muluu a b = List.replicate (2 * a.length) 0) := by
  obtain ⟨hl, hw, hv⟩ := mpi_muluu_spec hN hlen ha hb
  refine ⟨hl, hv, ?_⟩
  intro h0
  apply val_inj hw (wf_replicate_zero _)
  · rw [hl, List.length_replicate]
  · rw [hv, val_replicate_zero]
    rcases h0 with h | h <;> rw [h] <;> ring

/-- Witness for C3 at a concrete input (`N = 2`). -/
theorem C3_witness :
    (0 < ([2, 3] : List Nat).length ∧ ([2, 3] : List Nat).length = ([4, 5] : List Nat).length
      ∧ wf [2, 3] ∧ wf [4, 5]) ∧
    ((mpi_muluu [2, 3] [4, 5]).length = 2 * ([2, 3] : List Nat).length ∧
      val (mpi_muluu [2, 3] [4, 5]) = val [2, 3] * val [4, 5]) := by
  have h := C3_mul_correct (a := [2, 3]) (b := [4, 5]) (by norm_num) (by norm_num)
    (by decide) (by decide)
  exact ⟨⟨by norm_num, by norm_num, by decide, by decide⟩, h.1, h.2.1⟩

/-!  ## `mpi_moduu`: double-width modulo single-width reduction

`mpi_moduu` (rsa.c lines 175-237) reduces a `2N`-word dividend `a` in place
modulo the `N`-word normalized divisor `b`.  The C code keeps a pointer
`pr` into the dividend's buffer: `pr` starts at `a + N` (the upper half)
and moves down one word per round, for `N+1` rounds; the window
`pr[0..N]` is the current partial remainder (`pr[N]` meaningful only when
`flag` is set).

We represent the state of the buffer by three lists:
  * `pr`  — the `N+1` words `a[w..w+N]` of the current window (the word
    `a[w+N]` is out of bounds on the very first round and is never
    accessed while `flag` is clear; we seed it with 0);
  * `low` — the not-yet-absorbed dividend words `a[0..w-1]`, stored most
    significant first (the next word to be brought in is its head);
  * `hi`  — the already-drained buffer words `a[w+N+1..2N-1]` above the
    window, least significant first (each slide pushes the window's top
    word onto it).
The final buffer contents are `pr ++ hi` minus the phantom top element of
`hi`.  The double-word quotient estimate `(pr[N]<<16)|pr[N-1]` is modelled
as `pr[N]*65536 + pr[N-1]` (identical for 16-bit `pr[N-1]`), in line with
the file's conventions for `& 0xFFFF` and `>> 16`. -/

def moduuRoundFlag (b pr : List Nat) : List Nat × Bool :=
  let N := b.length
  let pq0 := (pr.getD N 0 * 65536 + pr.getD (N - 1) 0) / b.getD (N - 1) 0
  let pq := if 65535 < pq0 then 65535 else pq0
  let ms := mpi_mulsubuuk pr b pq
  let pr2 :=
    if ms.2 = 0 then
      -- trial pq was too high, add the divisor back and check
      let ad := mpi_add (ms.1.take N) b
      let carry := ad.2 + ms.1.getD N 0
      let prA := ad.1 ++ [carry % 65536]
      if carry / 65536 % 2 = 0 then
        -- still too high, add the divisor back again
        let ad2 := mpi_add (prA.take N) b
        let carry2 := ad2.2 + prA.getD N 0
        ad2.1 ++ [carry2 % 65536]
      else prA
    else ms.1
  (pr2, pr2.getD (N - 1) 0 != 0)

def moduuRoundNoFlag (b pr : List Nat) : List Nat × Bool :=
  let N := b.length
  if pr.getD (N - 1) 0 ≠ 0 then
    if 0 ≤ mpi_cmp (pr.take N) b then
      -- PR is >= divisor, pq=1, update PR
      let s := mpi_sub (pr.take N) b
      let pr2 := s ++ pr.drop N
      (pr2, pr2.getD (N - 1) 0 != 0)
    else
      -- PR is < divisor, pq=0, there will be N+1 words
      (pr, true)
  else
    -- PR has less than N significant words, pq=0, leave the flag at 0
    (pr, false)

def mpi_moduuLoop : List Nat → List Nat → List Nat → List Nat → Bool → Nat →
    List Nat × List Nat
  | _, _, pr, hi, _, 0 => (pr, hi)
  | b, low, pr, hi, flag, count + 1 =>
      let r := if flag then moduuRoundFlag b pr else moduuRoundNoFlag b pr
      match low with
      | [] => (r.1, hi)
      | d :: rest =>
          mpi_moduuLoop b rest (d :: r.1.dropLast) (r.1.getLastD 0 :: hi) r.2 count

def mpi_moduu (a b : List Nat) : List Nat :=
  let N := b.length
  let st := mpi_moduuLoop b (a.take N).reverse (a.drop N ++ [0]) [] false (N + 1)
  st.1 ++ st.2.dropLast

/-!  ### More list-value helpers -/

theorem drop_single : ∀ (l : List Nat), 0 < l.length →
    l.drop (l.length - 1) = [l.getD (l.length - 1) 0] := by
  intro l
  induction l with
  | nil => intro h; simp at h
  | cons x xs ih =>
      intro _
      cases xs with
      | nil => rfl
      | cons y ys =>
          have h := ih (by simp)
          simpa using h

theorem getLastD_eq_getD : ∀ (l : List Nat), l.getLastD 0 = l.getD (l.length - 1) 0 := by
  intro l
  induction l with
  | nil => rfl
  | cons x xs ih =>
      cases xs with
      | nil => rfl
      | cons y ys => simpa using ih

theorem val_split_top {l : List Nat} (h : 0 < l.length) :
    val l = val (l.take (l.length - 1)) + 65536 ^ (l.length - 1) * l.getD (l.length - 1) 0 := by
  have h1 := val_take_drop l (l.length - 1)
  rw [drop_single l h] at h1
  have h2 : (l.take (l.length - 1)).length = l.length - 1 := by
    rw [List.length_take]
    omega
  rw [h2] at h1
  simpa [val] using h1

/-- When the value is small, the top word of a `wf` list is 0. -/
theorem top_zero {l : List Nat} {n : Nat} (hw : wf l) (hl : l.length = n + 1)
    (hv : val l < 65536 ^ n) : l.getD n 0 = 0 := by
  have h := val_split_top (l := l) (by omega)
  rw [hl] at h
  simp only [Nat.add_sub_cancel] at h
  by_contra hne
  have h1 : 1 ≤ l.getD n 0 := by omega
  have h2 : 65536 ^ n * 1 ≤ 65536 ^ n * l.getD n 0 := Nat.mul_le_mul_left _ h1
  omega

theorem val_dropLast {l : List Nat} (h : 0 < l.length) :
    val l = val l.dropLast + 65536 ^ (l.length - 1) * l.getD (l.length - 1) 0 := by
  rw [List.dropLast_eq_take]
  exact val_split_top h

theorem wf_dropLast {l : List Nat} (h : wf l) : wf l.dropLast := by
  rw [List.dropLast_eq_take]
  exact wf_take h _

theorem getD_dropLast {l : List Nat} {i : Nat} (h : i < l.length - 1) :
    l.dropLast.getD i 0 = l.getD i 0 := by
  rw [List.dropLast_eq_take]
  exact getD_take l _ i (by omega)

theorem wf_reverse {l : List Nat} (h : wf l) : wf l.reverse :=
  fun z hz => h z (List.mem_reverse.1 hz)

theorem drop_two : ∀ (l : List Nat) (k : Nat), l.length = k + 2 →
    l.drop k = [l.getD k 0, l.getD (k + 1) 0] := by
  intro l
  induction l with
  | nil => intro k hk; simp at hk
  | cons x xs ih =>
      intro k hk
      cases k with
      | zero =>
          have : xs.length = 1 := by simpa using hk
          match xs, this with
          | [y], _ => rfl
      | succ k' =>
          have h := ih k' (by simpa using hk)
          simpa using h

/-- Two words of the window read as a double word. -/
theorem val_window_top {u : List Nat} {N : Nat} (hw : wf u) (hl : u.length = N + 1)
    (hN : 0 < N) :
    val u = val (u.take (N - 1))
      + 65536 ^ (N - 1) * (u.getD (N - 1) 0 + 65536 * u.getD N 0) := by
  have h1 := val_take_drop u (N - 1)
  have h2 : (u.take (N - 1)).length = N - 1 := by
    rw [List.length_take]
    omega
  have h3 : u.drop (N - 1) = [u.getD (N - 1) 0, u.getD N 0] := by
    have := drop_two u (N - 1) (by omega)
    rwa [show N - 1 + 1 = N by omega] at this
  rw [h2, h3] at h1
  simpa [val] using h1

/-- Normalization gives the two-sided bound on the divisor value. -/
theorem val_b_bounds {b : List Nat} (hbw : wf b) (hN : 0 < b.length)
    (hnorm : 32768 ≤ b.getD (b.length - 1) 0) :
    65536 ^ (b.length - 1) * b.getD (b.length - 1) 0 ≤ val b ∧
    val b < 65536 ^ (b.length - 1) * (b.getD (b.length - 1) 0 + 1) ∧
    32768 * 65536 ^ (b.length - 1) ≤ val b ∧
    65536 ^ b.length ≤ 2 * val b ∧
    0 < val b := by
  have h := val_split_top (l := b) hN
  have htake : (b.take (b.length - 1)).length = b.length - 1 := by
    rw [List.length_take]
    omega
  have htlt : val (b.take (b.length - 1)) < 65536 ^ (b.length - 1) := by
    have := val_lt (wf_take hbw (b.length - 1))
    rwa [htake] at this
  have h1 : 65536 ^ (b.length - 1) * b.getD (b.length - 1) 0 ≤ val b := by omega
  have h2 : val b < 65536 ^ (b.length - 1) * (b.getD (b.length - 1) 0 + 1) := by
    have : 65536 ^ (b.length - 1) * (b.getD (b.length - 1) 0 + 1)
        = 65536 ^ (b.length - 1) * b.getD (b.length - 1) 0 + 65536 ^ (b.length - 1) := by
      ring
    omega
  have h3 : 32768 * 65536 ^ (b.length - 1) ≤ val b := by
    have := Nat.mul_le_mul_left (65536 ^ (b.length - 1)) hnorm
    omega
  have h4 : 65536 ^ b.length ≤ 2 * val b := by
    have hp : (65536 : Nat) ^ b.length = 65536 ^ (b.length - 1) * 65536 := by
      rw [← pow_succ]
      congr 1
      omega
    omega
  have h5 : 0 < val b := by
    have : 0 < 65536 ^ (b.length - 1) := pow_pos (by norm_num) _
    omega
  exact ⟨h1, h2, h3, h4, h5⟩

/-- Knuth's quotient-estimate bound for a normalized divisor: the trial
digit computed from the top two words of the partial remainder and the top
word of the divisor overestimates the true quotient digit by at most 2 and
never underestimates it. -/
theorem quotient_estimate {b u : List Nat} (hbw : wf b) (hN : 0 < b.length)
    (hnorm : 32768 ≤ b.getD (b.length - 1) 0)
    (hu : wf u) (hul : u.length = b.length + 1)
    (hlt : val u < 65536 * val b) {pq : Nat}
    (hpq : pq = if 65535 < (u.getD b.length 0 * 65536 + u.getD (b.length - 1) 0)
          / b.getD (b.length - 1) 0
        then 65535
        else (u.getD b.length 0 * 65536 + u.getD (b.length - 1) 0)
          / b.getD (b.length - 1) 0) :
    val u / val b ≤ pq ∧ pq ≤ val u / val b + 2 ∧ pq ≤ 65535 := by
  obtain ⟨hb1, hb2, hb3, hb4, hb5⟩ := val_b_bounds hbw hN hnorm
  set N := b.length with hNdef
  set btop := b.getD (N - 1) 0 with hbtop
  set P := (65536 : Nat) ^ (N - 1) with hP
  set T := u.getD N 0 * 65536 + u.getD (N - 1) 0 with hT
  set vb := val b with hvb
  set q := val u / vb with hq
  have hbtop_pos : 0 < btop := by omega
  have hPpos : 0 < P := pow_pos (by norm_num) _
  have hwin := val_window_top (u := u) (N := N) hu (by omega) hN
  have hwin' : val u = val (u.take (N - 1)) + P * T := by
    rw [hwin, hP, hT]
    ring
  have hTlow : P * T ≤ val u := by omega
  have hThigh : val u < P * (T + 1) := by
    have htk : (u.take (N - 1)).length = N - 1 := by
      rw [List.length_take]
      omega
    have htlt : val (u.take (N - 1)) < P := by
      have h := val_lt (wf_take hu (N - 1))
      rw [htk] at h
      rw [hP]
      exact h
    have h2 : P * (T + 1) = P * T + P := by ring
    omega
  have hq_le : q ≤ 65535 := by
    have h := (Nat.div_lt_iff_lt_mul hb5).2 hlt
    rw [← hq] at h
    omega
  have hq1 : val u < vb * (q + 1) := by
    have h1 := Nat.div_add_mod (val u) vb
    rw [← hq] at h1
    have h2 := Nat.mod_lt (val u) hb5
    have h3 : vb * (q + 1) = vb * q + vb := by ring
    omega
  by_cases hclamp : 65535 < T / btop
  · rw [hpq, if_pos hclamp]
    refine ⟨hq_le, ?_, le_refl _⟩
    -- clamped case: show q ≥ 65533
    by_contra hcon
    have hqs : q + 1 ≤ 65533 := by omega
    have hTbig : 65536 * btop ≤ T := (Nat.le_div_iff_mul_le hbtop_pos).1 (by omega)
    have c1 : P * (65536 * btop) ≤ P * T := Nat.mul_le_mul_left _ hTbig
    have c2 : vb * (q + 1) ≤ vb * 65533 := Nat.mul_le_mul_left _ (by omega)
    have c3 : vb * 65533 < (P * (btop + 1)) * 65533 :=
      (Nat.mul_lt_mul_right (a := 65533) (by norm_num)).2 hb2
    have c4 : P * (65536 * btop) < P * ((btop + 1) * 65533) := by
      have h5 : (P * (btop + 1)) * 65533 = P * ((btop + 1) * 65533) := by ring
      omega
    have c5 : 65536 * btop < (btop + 1) * 65533 := Nat.lt_of_mul_lt_mul_left c4
    have : (btop + 1) * 65533 = 65533 * btop + 65533 := by ring
    omega
  · rw [hpq, if_neg hclamp]
    push_neg at hclamp
    refine ⟨?_, ?_, hclamp⟩
    · -- q ≤ T / btop
      have hTd := Nat.div_add_mod T btop
      have hTm := Nat.mod_lt T hbtop_pos
      have hTup : T + 1 ≤ btop * (T / btop + 1) := by
        have h5 : btop * (T / btop + 1) = btop * (T / btop) + btop := by ring
        omega
      have d1 : val u < P * (btop * (T / btop + 1)) := by
        have := Nat.mul_le_mul_left P hTup
        omega
      have d2 : P * (btop * (T / btop + 1)) = (P * btop) * (T / btop + 1) := by ring
      have d3 : (P * btop) * (T / btop + 1) ≤ vb * (T / btop + 1) :=
        Nat.mul_le_mul_right _ hb1
      have d4 : val u < (T / btop + 1) * vb := by
        have h5 : vb * (T / btop + 1) = (T / btop + 1) * vb := by ring
        omega
      have h6 := (Nat.div_lt_iff_lt_mul hb5).2 d4
      rw [← hq] at h6
      omega
    · -- T / btop ≤ q + 2
      by_contra hcon
      have hq3 : q + 3 ≤ T / btop := by omega
      have e1 : btop * (T / btop) ≤ T := by
        have := Nat.div_add_mod T btop
        omega
      have e0 : btop * (q + 3) ≤ btop * (T / btop) := Nat.mul_le_mul_left _ hq3
      have e2 : P * (btop * (T / btop)) ≤ val u := by
        have := Nat.mul_le_mul_left P e1
        omega
      have e3 : vb * (q + 1) < (P * (btop + 1)) * (q + 1) :=
        (Nat.mul_lt_mul_right (a := q + 1) (Nat.succ_pos q)).2 hb2
      have e4 : P * (btop * (T / btop)) < P * ((btop + 1) * (q + 1)) := by
        have h5 : (P * (btop + 1)) * (q + 1) = P * ((btop + 1) * (q + 1)) := by ring
        omega
      have e5 : btop * (T / btop) < (btop + 1) * (q + 1) := Nat.lt_of_mul_lt_mul_left e4
      have e7 : btop * (q + 3) = btop * q + 3 * btop := by ring
      have e8 : (btop + 1) * (q + 1) = btop * q + btop + q + 1 := by ring
      omega

theorem bne_zero_true {x : Nat} (h : x ≠ 0) : (x != 0) = true := by
  simpa [bne_iff_ne] using h

theorem bne_zero_false {x : Nat} (h : x = 0) : (x != 0) = false := by
  subst h
  rfl

/-- The partial remainder window always splits as its low `N` words plus
the top word. -/
theorem window_split {pr : List Nat} {N : Nat} (hlen : pr.length = N + 1) :
    val pr = val (pr.take N) + 65536 ^ N * pr.getD N 0 := by
  have h1 := val_take_drop pr N
  have h2 : (pr.take N).length = N := by
    rw [List.length_take]
    omega
  have h3 : pr.drop N = [pr.getD N 0] := by
    have := drop_single pr (by omega)
    rwa [show pr.length - 1 = N by omega] at this
  rw [h2, h3] at h1
  simpa [val] using h1

/-- Specification of a `flag = 0` round of the reduction loop: the window
value drops below the divisor without changing its residue class, the top
word stays 0, and the new flag reflects the window's word `N-1`. -/
theorem moduuRoundNoFlag_spec {b pr : List Nat} (hbw : wf b) (hN : 0 < b.length)
    (hnorm : 32768 ≤ b.getD (b.length - 1) 0)
    (hlen : pr.length = b.length + 1) (hw : wf pr)
    (htop : pr.getD b.length 0 = 0) :
    (moduuRoundNoFlag b pr).1.length = b.length + 1 ∧
    wf (moduuRoundNoFlag b pr).1 ∧
    (moduuRoundNoFlag b pr).1.getD b.length 0 = 0 ∧
    val (moduuRoundNoFlag b pr).1 < val b ∧
    (∃ q, val pr = q * val b + val (moduuRoundNoFlag b pr).1) ∧
    (moduuRoundNoFlag b pr).2
      = ((moduuRoundNoFlag b pr).1.getD (b.length - 1) 0 != 0) := by
  obtain ⟨hb1, hb2, hb3, hb4, hb5⟩ := val_b_bounds hbw hN hnorm
  have htk : (pr.take b.length).length = b.length := by
    rw [List.length_take]
    omega
  have hsplit := window_split (N := b.length) hlen
  rw [htop] at hsplit
  have hval : val pr = val (pr.take b.length) := by omega
  have htklt : val (pr.take b.length) < 65536 ^ b.length := by
    have := val_lt (wf_take hw b.length)
    rwa [htk] at this
  have hdropN : pr.drop b.length = [pr.getD b.length 0] := by
    have := drop_single pr (by omega)
    rwa [show pr.length - 1 = b.length by omega] at this
  simp only [moduuRoundNoFlag]
  by_cases hmsw : pr.getD (b.length - 1) 0 ≠ 0
  · rw [if_pos hmsw]
    by_cases hcmp : 0 ≤ mpi_cmp (pr.take b.length) b
    · rw [if_pos hcmp]
      have hge : val b ≤ val (pr.take b.length) :=
        (mpi_cmp_ge (by rw [htk]) (wf_take hw _) hbw).1 hcmp
      have hsub := mpi_sub_exact (d := pr.take b.length) (s := b) (by rw [htk])
        (wf_take hw _) hbw hge
      obtain ⟨_, hsl, hsw⟩ := mpi_sub_spec (d := pr.take b.length) (s := b) (by rw [htk])
        (wf_take hw _) hbw
      rw [hdropN, htop]
      have hlenr : (mpi_sub (pr.take b.length) b ++ [0]).length = b.length + 1 := by
        rw [List.length_append, hsl, htk]
        simp
      have hvalr : val (mpi_sub (pr.take b.length) b ++ [0])
          = val (pr.take b.length) - val b := by
        rw [val_append, hsub]
        simp [val]
      have htopr : (mpi_sub (pr.take b.length) b ++ [0]).getD b.length 0 = 0 := by
        have := getD_append_last (mpi_sub (pr.take b.length) b) 0
        rwa [hsl, htk] at this
      refine ⟨hlenr, wf_append hsw (wf_cons.2 ⟨by norm_num, wf_nil⟩), htopr, ?_, ?_, rfl⟩
      · rw [hvalr]
        omega
      · refine ⟨1, ?_⟩
        rw [hvalr, hval]
        omega
    · rw [if_neg hcmp]
      have hlt : val (pr.take b.length) < val b := by
        by_contra hcon
        exact hcmp ((mpi_cmp_ge (by rw [htk]) (wf_take hw _) hbw).2 (by omega))
      refine ⟨hlen, hw, htop, by show val pr < val b; omega,
        ⟨0, by show val pr = 0 * val b + val pr; omega⟩, (bne_zero_true hmsw).symm⟩
  · rw [if_neg hmsw]
    push_neg at hmsw
    have hsplit2 := val_split_top (l := pr.take b.length) (by omega)
    rw [htk] at hsplit2
    have hgd : (pr.take b.length).getD (b.length - 1) 0 = pr.getD (b.length - 1) 0 :=
      getD_take pr b.length (b.length - 1) (by omega)
    rw [hgd, hmsw] at hsplit2
    have htk2 : ((pr.take b.length).take (b.length - 1)).length = b.length - 1 := by
      rw [List.length_take, htk]
      omega
    have hlt2 : val ((pr.take b.length).take (b.length - 1)) < 65536 ^ (b.length - 1) := by
      have := val_lt (wf_take (wf_take hw b.length) (b.length - 1))
      rwa [htk2] at this
    have hlt : val pr < val b := by
      rw [hval]
      have : val (pr.take b.length) < 65536 ^ (b.length - 1) := by omega
      omega
    exact ⟨hlen, hw, htop, hlt, ⟨0, by show val pr = 0 * val b + val pr; omega⟩,
      (bne_zero_false hmsw).symm⟩

theorem wf_getD : ∀ (l : List Nat), wf l → ∀ i, l.getD i 0 < 65536 := by
  intro l
  induction l with
  | nil => intro _ i; simp
  | cons x xs ih =>
      intro h i
      rcases wf_cons.1 h with ⟨h1, h2⟩
      cases i with
      | zero => simpa using h1
      | succ j => simpa using ih h2 j

set_option maxHeartbeats 1600000 in
/-- Specification of a `flag = 1` round: the quotient digit is estimated,
the multiply-subtract step is applied, and at most two divisor add-backs
correct the overshoot; the window ends up holding the exact remainder. -/
theorem moduuRoundFlag_spec {b pr : List Nat} (hbw : wf b) (hN : 0 < b.length)
    (hnorm : 32768 ≤ b.getD (b.length - 1) 0)
    (hlen : pr.length = b.length + 1) (hw : wf pr)
    (hbound : val pr < 65536 * val b) :
    (moduuRoundFlag b pr).1.length = b.length + 1 ∧
    wf (moduuRoundFlag b pr).1 ∧
    (moduuRoundFlag b pr).1.getD b.length 0 = 0 ∧
    val (moduuRoundFlag b pr).1 < val b ∧
    (∃ q, val pr = q * val b + val (moduuRoundFlag b pr).1) ∧
    (moduuRoundFlag b pr).2
      = ((moduuRoundFlag b pr).1.getD (b.length - 1) 0 != 0) := by
  obtain ⟨hb1, hb2, hb3, hb4, hb5⟩ := val_b_bounds hbw hN hnorm
  have hvblt : val b < 65536 ^ b.length := val_lt hbw
  set pq0 := (pr.getD b.length 0 * 65536 + pr.getD (b.length - 1) 0)
      / b.getD (b.length - 1) 0 with hpq0
  set pq := if 65535 < pq0 then 65535 else pq0 with hpqdef
  have hpqeq : pq = if 65535 < (pr.getD b.length 0 * 65536 + pr.getD (b.length - 1) 0)
        / b.getD (b.length - 1) 0
      then 65535
      else (pr.getD b.length 0 * 65536 + pr.getD (b.length - 1) 0)
        / b.getD (b.length - 1) 0 := by rw [hpqdef, hpq0]
  obtain ⟨hest1, hest2, hest3⟩ := quotient_estimate hbw hN hnorm hw hlen hbound hpqeq
  obtain ⟨msl, msw, msiff1, msiff0, msv⟩ :=
    mpi_mulsubuuk_spec (c := pr) (a := b) (b := pq) hlen hw hbw (by omega)
  obtain ⟨q, r, hqr, hrlt⟩ : ∃ q r, val pr = val b * q + r ∧ r < val b :=
    ⟨val pr / val b, val pr % val b, (Nat.div_add_mod _ _).symm, Nat.mod_lt _ hb5⟩
  have hqdiv : val pr / val b = q :=
    ((Nat.div_mod_unique hb5).2 ⟨by omega, hrlt⟩).1
  rw [hqdiv] at hest1 hest2
  have hq1 : val pr < val b * (q + 1) := by
    have hd : val b * (q + 1) = val b * q + val b := by ring
    omega
  have hflag2 : (moduuRoundFlag b pr).2
      = ((moduuRoundFlag b pr).1.getD (b.length - 1) 0 != 0) := rfl
  have hXsplit := window_split (N := b.length) msl
  have htkMl : ((mpi_mulsubuuk pr b pq).1.take b.length).length = b.length := by
    rw [List.length_take, msl]
    omega
  have htkMlt : val ((mpi_mulsubuuk pr b pq).1.take b.length) < 65536 ^ b.length := by
    have := val_lt (wf_take msw b.length)
    rwa [htkMl] at this
  have hMtop : (mpi_mulsubuuk pr b pq).1.getD b.length 0 < 65536 := wf_getD _ msw _
  have hP1 : (65536 : Nat) ^ (b.length + 1) = 65536 ^ b.length * 65536 := pow_succ _ _
  by_cases hret0 : (mpi_mulsubuuk pr b pq).2 = 0
  · -- trial digit too high by one or two; add back
    have hlt0 : val pr < val b * pq := msiff0.1 hret0
    have hqlt : q < pq := by
      by_contra hcon
      have h1 : val b * pq ≤ val b * q := Nat.mul_le_mul_left _ (by omega)
      omega
    rw [hret0] at msv
    push_cast at msv
    -- msv : ↑(val M) = ↑(val pr) - ↑(val b) * ↑pq + 65536 ^ (b.length + 1)
    obtain ⟨adm, adc, adl, adw⟩ :=
      mpi_add_spec (d := (mpi_mulsubuuk pr b pq).1.take b.length) (s := b)
        (by rw [htkMl]) (wf_take msw _) hbw
    rw [htkMl] at adm adc adl
    have had_tot : val (mpi_add ((mpi_mulsubuuk pr b pq).1.take b.length) b).1
        + 65536 ^ b.length * (mpi_add ((mpi_mulsubuuk pr b pq).1.take b.length) b).2
        = val ((mpi_mulsubuuk pr b pq).1.take b.length) + val b := by
      rw [adm, adc]
      exact Nat.mod_add_div _ _
    have hADlt : val (mpi_add ((mpi_mulsubuuk pr b pq).1.take b.length) b).1
        < 65536 ^ b.length := by
      have := val_lt adw
      rwa [adl] at this
    have hAD2le : (mpi_add ((mpi_mulsubuuk pr b pq).1.take b.length) b).2 ≤ 1 := by
      rw [adc]
      have hsum : val ((mpi_mulsubuuk pr b pq).1.take b.length) + val b
          < 2 * 65536 ^ b.length := by omega
      have := Nat.div_lt_of_lt_mul (by omega :
        val ((mpi_mulsubuuk pr b pq).1.take b.length) + val b
          < 65536 ^ b.length * 2)
      omega
    have htot1 : val (mpi_add ((mpi_mulsubuuk pr b pq).1.take b.length) b).1
        + 65536 ^ b.length * ((mpi_add ((mpi_mulsubuuk pr b pq).1.take b.length) b).2
            + (mpi_mulsubuuk pr b pq).1.getD b.length 0)
        = val (mpi_mulsubuuk pr b pq).1 + val b := by
      have hdist : 65536 ^ b.length
            * ((mpi_add ((mpi_mulsubuuk pr b pq).1.take b.length) b).2
              + (mpi_mulsubuuk pr b pq).1.getD b.length 0)
          = 65536 ^ b.length * (mpi_add ((mpi_mulsubuuk pr b pq).1.take b.length) b).2
            + 65536 ^ b.length * (mpi_mulsubuuk pr b pq).1.getD b.length 0 := by ring
      omega
    have hcarry_le : (mpi_add ((mpi_mulsubuuk pr b pq).1.take b.length) b).2
        + (mpi_mulsubuuk pr b pq).1.getD b.length 0 ≤ 65536 := by omega
    rcases (show pq = q + 1 ∨ pq = q + 2 by omega) with hpq1 | hpq2
    · -- one add-back suffices
      have hp1_le : 65536 ^ (b.length + 1) ≤ val (mpi_mulsubuuk pr b pq).1 + val b := by
        zify
        have hpqz : (pq : Int) = (q : Int) + 1 := by exact_mod_cast congrArg Nat.cast hpq1
        have hqrz : (val pr : Int) = (val b : Int) * q + r := by exact_mod_cast hqr
        have hrz : (0 : Int) ≤ r := Int.natCast_nonneg _
        have hbridge : (val b : Int) * pq = (val b : Int) * q + val b := by
          rw [hpqz]; ring
        linarith [msv, hqrz, hrz, hbridge]
      have hcarry_eq : (mpi_add ((mpi_mulsubuuk pr b pq).1.take b.length) b).2
          + (mpi_mulsubuuk pr b pq).1.getD b.length 0 = 65536 := by
        by_contra hcon
        have hle : (mpi_add ((mpi_mulsubuuk pr b pq).1.take b.length) b).2
            + (mpi_mulsubuuk pr b pq).1.getD b.length 0 ≤ 65535 := by omega
        have h1 : 65536 ^ b.length
              * ((mpi_add ((mpi_mulsubuuk pr b pq).1.take b.length) b).2
                + (mpi_mulsubuuk pr b pq).1.getD b.length 0)
            ≤ 65536 ^ b.length * 65535 := Nat.mul_le_mul_left _ hle
        have h2 : (65536 : Nat) ^ b.length * 65536
            = 65536 ^ b.length + 65536 ^ b.length * 65535 := by ring
        omega
      have htest : ¬ ((mpi_add ((mpi_mulsubuuk pr b pq).1.take b.length) b).2
          + (mpi_mulsubuuk pr b pq).1.getD b.length 0) / 65536 % 2 = 0 := by
        rw [hcarry_eq]
        decide
      have hchar : (moduuRoundFlag b pr).1
          = (mpi_add ((mpi_mulsubuuk pr b pq).1.take b.length) b).1
            ++ [((mpi_add ((mpi_mulsubuuk pr b pq).1.take b.length) b).2
                + (mpi_mulsubuuk pr b pq).1.getD b.length 0) % 65536] := by
        show (if (mpi_mulsubuuk pr b pq).2 = 0 then _ else _) = _
        rw [if_pos hret0, if_neg htest]
      have hfin : val (mpi_add ((mpi_mulsubuuk pr b pq).1.take b.length) b).1
          + val b * q = val pr := by
        rw [hcarry_eq] at htot1
        zify
        have hqrz : (val pr : Int) = (val b : Int) * q + r := by exact_mod_cast hqr
        have hpqz : (pq : Int) = (q : Int) + 1 := by exact_mod_cast congrArg Nat.cast hpq1
        have htot1z : (val (mpi_add ((mpi_mulsubuuk pr b pq).1.take b.length) b).1 : Int)
            + (65536 : Int) ^ b.length * 65536
            = (val (mpi_mulsubuuk pr b pq).1 : Int) + val b := by exact_mod_cast htot1
        have hP1z : ((65536 : Nat) ^ (b.length + 1) : Int)
            = (65536 : Int) ^ b.length * 65536 := by push_cast [hP1]; ring
        have hbridge : (val b : Int) * pq = (val b : Int) * q + val b := by
          rw [hpqz]; ring
        linarith [msv, hqrz, htot1z, hP1z, hbridge]
      have hflag2' := hflag2
      rw [hchar, hcarry_eq] at hflag2'
      rw [hchar, hcarry_eq]
      have hlenr : ((mpi_add ((mpi_mulsubuuk pr b pq).1.take b.length) b).1
          ++ [65536 % 65536]).length = b.length + 1 := by
        rw [List.length_append, adl]
        simp
      have hvalr : val ((mpi_add ((mpi_mulsubuuk pr b pq).1.take b.length) b).1
          ++ [65536 % 65536])
          = val (mpi_add ((mpi_mulsubuuk pr b pq).1.take b.length) b).1 := by
        rw [val_append, adl]
        simp [val]
      have htopr : ((mpi_add ((mpi_mulsubuuk pr b pq).1.take b.length) b).1
          ++ [65536 % 65536]).getD b.length 0 = 0 := by
        have := getD_append_last (mpi_add ((mpi_mulsubuuk pr b pq).1.take b.length) b).1
          (65536 % 65536)
        rw [adl] at this
        rw [this]
      have hcomm : q * val b = val b * q := Nat.mul_comm _ _
      refine ⟨hlenr, ?_, htopr, ?_, ⟨q, ?_⟩, hflag2'⟩
      · exact wf_append adw (wf_cons.2 ⟨by norm_num, wf_nil⟩)
      · rw [hvalr]
        omega
      · rw [hvalr]
        omega
    · -- two add-backs needed
      have hp1_gt : val (mpi_mulsubuuk pr b pq).1 + val b < 65536 ^ (b.length + 1) := by
        zify
        have hpqz : (pq : Int) = (q : Int) + 2 := by exact_mod_cast congrArg Nat.cast hpq2
        have hq1z : (val pr : Int) < (val b : Int) * ((q : Int) + 1) := by
          exact_mod_cast hq1
        have hbridge : (val b : Int) * pq = (val b : Int) * q + 2 * val b := by
          rw [hpqz]; ring
        have hbridge2 : (val b : Int) * ((q : Int) + 1) = (val b : Int) * q + val b := by
          ring
        linarith [msv, hq1z, hbridge, hbridge2]
      have hcarry_lt : (mpi_add ((mpi_mulsubuuk pr b pq).1.take b.length) b).2
          + (mpi_mulsubuuk pr b pq).1.getD b.length 0 < 65536 := by
        by_contra hcon
        have hge : 65536 ≤ (mpi_add ((mpi_mulsubuuk pr b pq).1.take b.length) b).2
            + (mpi_mulsubuuk pr b pq).1.getD b.length 0 := by omega
        have h1 : 65536 ^ b.length * 65536
            ≤ 65536 ^ b.length
              * ((mpi_add ((mpi_mulsubuuk pr b pq).1.take b.length) b).2
                + (mpi_mulsubuuk pr b pq).1.getD b.length 0) :=
          Nat.mul_le_mul_left _ hge
        omega
      have htest : ((mpi_add ((mpi_mulsubuuk pr b pq).1.take b.length) b).2
          + (mpi_mulsubuuk pr b pq).1.getD b.length 0) / 65536 % 2 = 0 := by
        rw [Nat.div_eq_of_lt hcarry_lt]
      obtain ⟨ad2m, ad2c, ad2l, ad2w⟩ :=
        mpi_add_spec (d := (mpi_add ((mpi_mulsubuuk pr b pq).1.take b.length) b).1)
          (s := b) (by rw [adl]) adw hbw
      rw [adl] at ad2m ad2c ad2l
      have had2_tot : val (mpi_add (mpi_add ((mpi_mulsubuuk pr b pq).1.take b.length) b).1 b).1
          + 65536 ^ b.length
            * (mpi_add (mpi_add ((mpi_mulsubuuk pr b pq).1.take b.length) b).1 b).2
          = val (mpi_add ((mpi_mulsubuuk pr b pq).1.take b.length) b).1 + val b := by
        rw [ad2m, ad2c]
        exact Nat.mod_add_div _ _
      have hAD21lt : val (mpi_add (mpi_add ((mpi_mulsubuuk pr b pq).1.take b.length) b).1 b).1
          < 65536 ^ b.length := by
        have := val_lt ad2w
        rwa [ad2l] at this
      have hAD22le : (mpi_add (mpi_add ((mpi_mulsubuuk pr b pq).1.take b.length) b).1 b).2
          ≤ 1 := by
        rw [ad2c]
        have := Nat.div_lt_of_lt_mul (by omega :
          val (mpi_add ((mpi_mulsubuuk pr b pq).1.take b.length) b).1 + val b
            < 65536 ^ b.length * 2)
        omega
      -- the take of the once-corrected window is the first add's output
      have htake2 : ((mpi_add ((mpi_mulsubuuk pr b pq).1.take b.length) b).1
          ++ [((mpi_add ((mpi_mulsubuuk pr b pq).1.take b.length) b).2
              + (mpi_mulsubuuk pr b pq).1.getD b.length 0) % 65536]).take b.length
          = (mpi_add ((mpi_mulsubuuk pr b pq).1.take b.length) b).1 :=
        List.take_left' adl
      have hgd2 : ((mpi_add ((mpi_mulsubuuk pr b pq).1.take b.length) b).1
          ++ [((mpi_add ((mpi_mulsubuuk pr b pq).1.take b.length) b).2
              + (mpi_mulsubuuk pr b pq).1.getD b.length 0) % 65536]).getD b.length 0
          = ((mpi_add ((mpi_mulsubuuk pr b pq).1.take b.length) b).2
              + (mpi_mulsubuuk pr b pq).1.getD b.length 0) % 65536 := by
        have := getD_append_last (mpi_add ((mpi_mulsubuuk pr b pq).1.take b.length) b).1
          (((mpi_add ((mpi_mulsubuuk pr b pq).1.take b.length) b).2
              + (mpi_mulsubuuk pr b pq).1.getD b.length 0) % 65536)
        rwa [adl] at this
      have hc2m : ((mpi_add ((mpi_mulsubuuk pr b pq).1.take b.length) b).2
          + (mpi_mulsubuuk pr b pq).1.getD b.length 0) % 65536
          = (mpi_add ((mpi_mulsubuuk pr b pq).1.take b.length) b).2
            + (mpi_mulsubuuk pr b pq).1.getD b.length 0 := Nat.mod_eq_of_lt hcarry_lt
      have hchar : (moduuRoundFlag b pr).1
          = (mpi_add (mpi_add ((mpi_mulsubuuk pr b pq).1.take b.length) b).1 b).1
            ++ [((mpi_add (mpi_add ((mpi_mulsubuuk pr b pq).1.take b.length) b).1 b).2
                + ((mpi_add ((mpi_mulsubuuk pr b pq).1.take b.length) b).2
                  + (mpi_mulsubuuk pr b pq).1.getD b.length 0)) % 65536] := by
        show (if (mpi_mulsubuuk pr b pq).2 = 0 then _ else _) = _
        rw [if_pos hret0, if_pos htest, htake2, hgd2, hc2m]
      have htot2 : val (mpi_add (mpi_add ((mpi_mulsubuuk pr b pq).1.take b.length) b).1 b).1
          + 65536 ^ b.length
            * ((mpi_add (mpi_add ((mpi_mulsubuuk pr b pq).1.take b.length) b).1 b).2
              + ((mpi_add ((mpi_mulsubuuk pr b pq).1.take b.length) b).2
                + (mpi_mulsubuuk pr b pq).1.getD b.length 0))
          = val (mpi_mulsubuuk pr b pq).1 + 2 * val b := by
        have hdist : 65536 ^ b.length
              * ((mpi_add (mpi_add ((mpi_mulsubuuk pr b pq).1.take b.length) b).1 b).2
                + ((mpi_add ((mpi_mulsubuuk pr b pq).1.take b.length) b).2
                  + (mpi_mulsubuuk pr b pq).1.getD b.length 0))
            = 65536 ^ b.length
                * (mpi_add (mpi_add ((mpi_mulsubuuk pr b pq).1.take b.length) b).1 b).2
              + 65536 ^ b.length
                * ((mpi_add ((mpi_mulsubuuk pr b pq).1.take b.length) b).2
                  + (mpi_mulsubuuk pr b pq).1.getD b.length 0) := by ring
        omega
      have hp2_le : 65536 ^ (b.length + 1) ≤ val (mpi_mulsubuuk pr b pq).1 + 2 * val b := by
        zify
        have hpqz : (pq : Int) = (q : Int) + 2 := by exact_mod_cast congrArg Nat.cast hpq2
        have hqrz : (val pr : Int) = (val b : Int) * q + r := by exact_mod_cast hqr
        have hrz : (0 : Int) ≤ r := Int.natCast_nonneg _
        have hbridge : (val b : Int) * pq = (val b : Int) * q + 2 * val b := by
          rw [hpqz]; ring
        linarith [msv, hqrz, hrz, hbridge]
      have hcar2_le : (mpi_add (mpi_add ((mpi_mulsubuuk pr b pq).1.take b.length) b).1 b).2
          + ((mpi_add ((mpi_mulsubuuk pr b pq).1.take b.length) b).2
            + (mpi_mulsubuuk pr b pq).1.getD b.length 0) ≤ 65536 := by omega
      have hcar2_eq : (mpi_add (mpi_add ((mpi_mulsubuuk pr b pq).1.take b.length) b).1 b).2
          + ((mpi_add ((mpi_mulsubuuk pr b pq).1.take b.length) b).2
            + (mpi_mulsubuuk pr b pq).1.getD b.length 0) = 65536 := by
        by_contra hcon
        have hle : (mpi_add (mpi_add ((mpi_mulsubuuk pr b pq).1.take b.length) b).1 b).2
            + ((mpi_add ((mpi_mulsubuuk pr b pq).1.take b.length) b).2
              + (mpi_mulsubuuk pr b pq).1.getD b.length 0) ≤ 65535 := by omega
        have h1 : 65536 ^ b.length
              * ((mpi_add (mpi_add ((mpi_mulsubuuk pr b pq).1.take b.length) b).1 b).2
                + ((mpi_add ((mpi_mulsubuuk pr b pq).1.take b.length) b).2
                  + (mpi_mulsubuuk pr b pq).1.getD b.length 0))
            ≤ 65536 ^ b.length * 65535 := Nat.mul_le_mul_left _ hle
        have h2 : (65536 : Nat) ^ b.length * 65536
            = 65536 ^ b.length + 65536 ^ b.length * 65535 := by ring
        omega
      have hfin : val (mpi_add (mpi_add ((mpi_mulsubuuk pr b pq).1.take b.length) b).1 b).1
          + val b * q = val pr := by
        rw [hcar2_eq] at htot2
        zify
        have hqrz : (val pr : Int) = (val b : Int) * q + r := by exact_mod_cast hqr
        have hpqz : (pq : Int) = (q : Int) + 2 := by exact_mod_cast congrArg Nat.cast hpq2
        have htot2z : (val (mpi_add (mpi_add ((mpi_mulsubuuk pr b pq).1.take b.length) b).1 b).1 : Int)
            + (65536 : Int) ^ b.length * 65536
            = (val (mpi_mulsubuuk pr b pq).1 : Int) + 2 * val b := by exact_mod_cast htot2
        have hP1z : ((65536 : Nat) ^ (b.length + 1) : Int)
            = (65536 : Int) ^ b.length * 65536 := by push_cast [hP1]; ring
        have hbridge : (val b : Int) * pq = (val b : Int) * q + 2 * val b := by
          rw [hpqz]; ring
        linarith [msv, hqrz, htot2z, hP1z, hbridge]
      have hflag2' := hflag2
      rw [hchar, hcar2_eq] at hflag2'
      rw [hchar, hcar2_eq]
      have hlenr : ((mpi_add (mpi_add ((mpi_mulsubuuk pr b pq).1.take b.length) b).1 b).1
          ++ [65536 % 65536]).length = b.length + 1 := by
        rw [List.length_append, ad2l]
        simp
      have hvalr : val ((mpi_add (mpi_add ((mpi_mulsubuuk pr b pq).1.take b.length) b).1 b).1
          ++ [65536 % 65536])
          = val (mpi_add (mpi_add ((mpi_mulsubuuk pr b pq).1.take b.length) b).1 b).1 := by
        rw [val_append, ad2l]
        simp [val]
      have htopr : ((mpi_add (mpi_add ((mpi_mulsubuuk pr b pq).1.take b.length) b).1 b).1
          ++ [65536 % 65536]).getD b.length 0 = 0 := by
        have := getD_append_last
          (mpi_add (mpi_add ((mpi_mulsubuuk pr b pq).1.take b.length) b).1 b).1
          (65536 % 65536)
        rw [ad2l] at this
        rw [this]
      have hcomm : q * val b = val b * q := Nat.mul_comm _ _
      refine ⟨hlenr, ?_, htopr, ?_, ⟨q, ?_⟩, hflag2'⟩
      · exact wf_append ad2w (wf_cons.2 ⟨by norm_num, wf_nil⟩)
      · rw [hvalr]
        omega
      · rw [hvalr]
        omega
  · -- no borrow: the trial digit was exact
    have hret1 : (mpi_mulsubuuk pr b pq).2 = 1 := by
      rcases Nat.lt_or_ge (val pr) (val b * pq) with h | h
      · exact absurd (msiff0.2 h) hret0
      · exact msiff1.2 h
    have hge : val b * pq ≤ val pr := msiff1.1 hret1
    have hqge : pq ≤ q := by
      by_contra hcon
      have h1 : val b * (q + 1) ≤ val b * pq := Nat.mul_le_mul_left _ (by omega)
      omega
    have hpqq : pq = q := by omega
    rw [hret1] at msv
    push_cast at msv
    norm_num at msv
    -- msv : ↑(val M) = ↑(val pr) - ↑(val b) * ↑pq
    have hfin : val (mpi_mulsubuuk pr b pq).1 + val b * q = val pr := by
      zify
      have hpqz : (pq : Int) = (q : Int) := by exact_mod_cast congrArg Nat.cast hpqq
      have hbridge : (val b : Int) * pq = (val b : Int) * q := by rw [hpqz]
      linarith [msv, hbridge]
    have hvlt : val (mpi_mulsubuuk pr b pq).1 < val b := by omega
    have htopz : (mpi_mulsubuuk pr b pq).1.getD b.length 0 = 0 :=
      top_zero msw msl (by omega)
    have hchar : (moduuRoundFlag b pr).1 = (mpi_mulsubuuk pr b pq).1 := by
      show (if (mpi_mulsubuuk pr b pq).2 = 0 then _ else _) = _
      rw [if_neg hret0]
    have hflag2' := hflag2
    rw [hchar] at hflag2'
    rw [hchar]
    have hcomm : q * val b = val b * q := Nat.mul_comm _ _
    exact ⟨msl, msw, htopz, hvlt, ⟨q, by omega⟩, hflag2'⟩

/-- Round dispatcher: whichever branch the flag selects, the window ends
the round holding a value `< val b` in the same residue class, with zero
top word, and the new flag mirrors word `N-1`. -/
theorem moduuRound_spec {b pr : List Nat} (hbw : wf b) (hN : 0 < b.length)
    (hnorm : 32768 ≤ b.getD (b.length - 1) 0)
    (hlen : pr.length = b.length + 1) (hw : wf pr)
    (flag : Bool) (hflag : flag = (pr.getD b.length 0 != 0))
    (hbound : val pr < 65536 * val b) :
    (if flag then moduuRoundFlag b pr else moduuRoundNoFlag b pr).1.length
      = b.length + 1 ∧
    wf (if flag then moduuRoundFlag b pr else moduuRoundNoFlag b pr).1 ∧
    (if flag then moduuRoundFlag b pr else moduuRoundNoFlag b pr).1.getD b.length 0 = 0 ∧
    val (if flag then moduuRoundFlag b pr else moduuRoundNoFlag b pr).1 < val b ∧
    (∃ q, val pr
      = q * val b + val (if flag then moduuRoundFlag b pr else moduuRoundNoFlag b pr).1) ∧
    (if flag then moduuRoundFlag b pr else moduuRoundNoFlag b pr).2
      = ((if flag then moduuRoundFlag b pr else moduuRoundNoFlag b pr).1.getD
          (b.length - 1) 0 != 0) := by
  cases flag with
  | false =>
      have htop : pr.getD b.length 0 = 0 := by
        by_contra h
        rw [bne_zero_true h] at hflag
        exact Bool.noConfusion hflag
      rw [if_neg Bool.false_ne_true]
      exact moduuRoundNoFlag_spec hbw hN hnorm hlen hw htop
  | true =>
      rw [if_pos rfl]
      exact moduuRoundFlag_spec hbw hN hnorm hlen hw hbound

set_option maxHeartbeats 1000000 in
/-- Invariant of the reduction loop: running the remaining `low.length + 1`
rounds leaves the window holding a value `< val b` congruent to the number
formed by the incoming window and the unabsorbed digits, with zeros pushed
above. -/
theorem mpi_moduuLoop_spec {b : List Nat} (hbw : wf b) (hN : 0 < b.length)
    (hnorm : 32768 ≤ b.getD (b.length - 1) 0) :
    ∀ (low : List Nat), ∀ (pr hi : List Nat) (flag : Bool),
    wf low → pr.length = b.length + 1 → wf pr →
    flag = (pr.getD b.length 0 != 0) → val pr < 65536 * val b →
    (mpi_moduuLoop b low pr hi flag (low.length + 1)).1.length = b.length + 1 ∧
    wf (mpi_moduuLoop b low pr hi flag (low.length + 1)).1 ∧
    (mpi_moduuLoop b low pr hi flag (low.length + 1)).1.getD b.length 0 = 0 ∧
    val (mpi_moduuLoop b low pr hi flag (low.length + 1)).1 < val b ∧
    (∃ k, val pr * 65536 ^ low.length + val low.reverse
        = k * val b + val (mpi_moduuLoop b low pr hi flag (low.length + 1)).1) ∧
    (mpi_moduuLoop b low pr hi flag (low.length + 1)).2
      = List.replicate low.length 0 ++ hi := by
  intro low
  induction low with
  | nil =>
      intro pr hi flag _ hlen hw hflag hbound
      obtain ⟨l1, w1, t1, lt1, ⟨qq, hqq⟩, f1⟩ :=
        moduuRound_spec hbw hN hnorm hlen hw flag hflag hbound
      simp only [mpi_moduuLoop, List.length_nil]
      refine ⟨l1, w1, t1, lt1, ⟨qq, ?_⟩, by simp⟩
      simpa [val] using hqq
  | cons d rest ih =>
      intro pr hi flag hwl hlen hw hflag hbound
      obtain ⟨l1, w1, t1, lt1, ⟨qq, hqq⟩, f1⟩ :=
        moduuRound_spec hbw hN hnorm hlen hw flag hflag hbound
      rcases wf_cons.1 hwl with ⟨hd, hrest⟩
      -- name the round output
      set r := if flag then moduuRoundFlag b pr else moduuRoundNoFlag b pr with hr
      -- the slid window
      have hdll : r.1.dropLast.length = b.length := by
        rw [List.length_dropLast, l1]
        omega
      have hprl : (d :: r.1.dropLast).length = b.length + 1 := by
        simp [hdll]
      have hprw : wf (d :: r.1.dropLast) := wf_cons.2 ⟨hd, wf_dropLast w1⟩
      have hvd : val r.1.dropLast = val r.1 := by
        have h := val_dropLast (l := r.1) (by omega)
        rw [l1] at h
        simp only [Nat.add_sub_cancel] at h
        rw [t1] at h
        omega
      have hprtop : (d :: r.1.dropLast).getD b.length 0 = r.1.getD (b.length - 1) 0 := by
        have hb1' : b.length = (b.length - 1) + 1 := by omega
        rw [hb1']
        rw [List.getD_cons_succ]
        exact getD_dropLast (by omega)
      have hprflag : r.2 = ((d :: r.1.dropLast).getD b.length 0 != 0) := by
        rw [hprtop]
        exact f1
      have hprbound : val (d :: r.1.dropLast) < 65536 * val b := by
        rw [val_cons, hvd]
        have h1 : 65536 * val r.1 + 65536 ≤ 65536 * val b := by
          have := Nat.mul_le_mul_left 65536 (by omega : val r.1 + 1 ≤ val b)
          have hdist : 65536 * (val r.1 + 1) = 65536 * val r.1 + 65536 := by ring
          omega
        omega
      obtain ⟨L1, W1, T1, LT1, ⟨k, hk⟩, F1⟩ :=
        ih (d :: r.1.dropLast) (r.1.getLastD 0 :: hi) r.2
          hrest hprl hprw hprflag hprbound
      have hunfold : mpi_moduuLoop b (d :: rest) pr hi flag ((d :: rest).length + 1)
          = mpi_moduuLoop b rest (d :: r.1.dropLast) (r.1.getLastD 0 :: hi) r.2
              (rest.length + 1) := by
        show mpi_moduuLoop b (d :: rest) pr hi flag (rest.length + 1 + 1) = _
        simp only [mpi_moduuLoop]
      rw [hunfold]
      have hglast : r.1.getLastD 0 = 0 := by
        rw [getLastD_eq_getD, l1]
        simpa using t1
      refine ⟨L1, W1, T1, LT1, ⟨qq * 65536 ^ (rest.length + 1) + k, ?_⟩, ?_⟩
      · rw [val_cons, hvd] at hk
        have hrev : val ((d :: rest).reverse)
            = val rest.reverse + 65536 ^ rest.length * d := by
          rw [List.reverse_cons, val_append, List.length_reverse]
          simp [val]
        rw [hrev, List.length_cons]
        zify
        zify at hqq hk
        linear_combination ((65536 : Int) ^ (rest.length + 1)) * hqq + hk
      · rw [F1, hglast, List.length_cons, List.replicate_succ', List.append_assoc]
        rfl

/-- Main specification of `mpi_moduu`: the low `N` words of the buffer end
up holding exactly `a mod b`, and the upper `N` words are all zero. -/
theorem mpi_moduu_spec {a b : List Nat} (hla : a.length = 2 * b.length)
    (hN : 0 < b.length) (ha : wf a) (hbw : wf b)
    (hnorm : 32768 ≤ b.getD (b.length - 1) 0) :
    (mpi_moduu a b).length = 2 * b.length ∧ wf (mpi_moduu a b) ∧
    val ((mpi_moduu a b).take b.length) = val a % val b ∧
    val ((mpi_moduu a b).take b.length) < val b ∧
    (mpi_moduu a b).drop b.length = List.replicate b.length 0 := by
  obtain ⟨hb1, hb2, hb3, hb4, hb5⟩ := val_b_bounds hbw hN hnorm
  have hlow : ((a.take b.length).reverse).length = b.length := by
    rw [List.length_reverse, List.length_take]
    omega
  have hdl : (a.drop b.length).length = b.length := by
    rw [List.length_drop]
    omega
  have hprl : (a.drop b.length ++ [0]).length = b.length + 1 := by
    rw [List.length_append, hdl]
    simp
  have hprw : wf (a.drop b.length ++ [0]) :=
    wf_append (wf_drop ha _) (wf_cons.2 ⟨by norm_num, wf_nil⟩)
  have hprtop : (a.drop b.length ++ [0]).getD b.length 0 = 0 := by
    have := getD_append_last (a.drop b.length) 0
    rwa [hdl] at this
  have hprv : val (a.drop b.length ++ [0]) = val (a.drop b.length) := by
    rw [val_append]
    simp [val]
  have hdroplt : val (a.drop b.length) < 65536 ^ b.length := by
    have := val_lt (wf_drop ha b.length)
    rwa [hdl] at this
  have hprbound : val (a.drop b.length ++ [0]) < 65536 * val b := by
    rw [hprv]
    have h2 : 2 * val b ≤ 65536 * val b := Nat.mul_le_mul_right _ (by norm_num)
    omega
  obtain ⟨L1, W1, T1, LT1, ⟨k, hk⟩, F1⟩ :=
    mpi_moduuLoop_spec hbw hN hnorm ((a.take b.length).reverse)
      (a.drop b.length ++ [0]) [] false
      (wf_reverse (wf_take ha _)) hprl hprw (bne_zero_false hprtop).symm hprbound
  rw [hlow] at L1 W1 T1 LT1 hk F1
  have hmod : mpi_moduu a b
      = (mpi_moduuLoop b ((a.take b.length).reverse) (a.drop b.length ++ [0]) [] false
          (b.length + 1)).1
        ++ (mpi_moduuLoop b ((a.take b.length).reverse) (a.drop b.length ++ [0]) [] false
          (b.length + 1)).2.dropLast := rfl
  rw [List.reverse_reverse] at hk
  have htk : (a.take b.length).length = b.length := by
    rw [List.length_take]
    omega
  have hvala : val a = val (a.drop b.length ++ [0]) * 65536 ^ b.length
      + val (a.take b.length) := by
    have h1 := val_take_drop a b.length
    rw [htk] at h1
    rw [hprv, Nat.mul_comm]
    omega
  have hkey : val a = k * val b
      + val (mpi_moduuLoop b ((a.take b.length).reverse) (a.drop b.length ++ [0]) [] false
          (b.length + 1)).1 := by
    rw [hvala]
    omega
  have hmodeq : val a % val b
      = val (mpi_moduuLoop b ((a.take b.length).reverse) (a.drop b.length ++ [0]) [] false
          (b.length + 1)).1 := by
    rw [hkey]
    rw [show k * val b
        + val (mpi_moduuLoop b ((a.take b.length).reverse) (a.drop b.length ++ [0]) [] false
          (b.length + 1)).1
      = val (mpi_moduuLoop b ((a.take b.length).reverse) (a.drop b.length ++ [0]) [] false
          (b.length + 1)).1 + val b * k by ring]
    rw [Nat.add_mul_mod_self_left]
    exact Nat.mod_eq_of_lt LT1
  rw [List.append_nil] at F1
  have hdropl : ((List.replicate b.length (0 : Nat)).dropLast)
      = List.replicate (b.length - 1) 0 := by
    conv_lhs => rw [show b.length = (b.length - 1) + 1 by omega]
    rw [List.replicate_succ', List.dropLast_concat]
  have hsplitSt := window_split (N := b.length) L1
  rw [T1] at hsplitSt
  have htake : (mpi_moduu a b).take b.length
      = ((mpi_moduuLoop b ((a.take b.length).reverse) (a.drop b.length ++ [0]) [] false
          (b.length + 1)).1).take b.length := by
    rw [hmod]
    exact List.take_append_of_le_length (by omega)
  have hdropSt : ((mpi_moduuLoop b ((a.take b.length).reverse) (a.drop b.length ++ [0]) []
        false (b.length + 1)).1).drop b.length = [0] := by
    have h := drop_single (mpi_moduuLoop b ((a.take b.length).reverse)
        (a.drop b.length ++ [0]) [] false (b.length + 1)).1 (by omega)
    rw [L1] at h
    simp only [Nat.add_sub_cancel] at h
    rw [T1] at h
    exact h
  refine ⟨?_, ?_, ?_, ?_, ?_⟩
  · rw [hmod, List.length_append, L1, F1, hdropl, List.length_replicate]
    omega
  · rw [hmod]
    exact wf_append W1 (by rw [F1, hdropl]; exact wf_replicate_zero _)
  · rw [htake, hmodeq]
    omega
  · rw [htake]
    omega
  · rw [hmod, List.drop_append_of_le_length (by omega), hdropSt, F1, hdropl]
    conv_rhs => rw [show b.length = (b.length - 1) + 1 by omega]
    rw [List.replicate_succ]
    rfl

/-- C2: after `mpi_moduu`, the low `N` words of the dividend's buffer hold
exactly the original value modulo the normalized divisor, and that
remainder is strictly less than the divisor. -/
theorem C2_reduce_correct {a b : List Nat} (hla : a.length = 2 * b.length)
    (hN : 0 < b.length) (ha : wf a) (hbw : wf b)
    (hnorm : 32768 ≤ b.getD (b.length - 1) 0) :
    val ((mpi_moduu a b).take b.length) = val a % val b ∧
    val ((mpi_moduu a b).take b.length) < val b := by
  obtain ⟨_, _, h1, h2, _⟩ := mpi_moduu_spec hla hN ha hbw hnorm
  exact ⟨h1, h2⟩

/-- Witness for C2 at a concrete input (`N = 2`). -/
theorem C2_witness :
    (([12345, 54321, 33333, 65535] : List Nat).length = 2 * ([257, 40000] : List Nat).length
      ∧ 0 < ([257, 40000] : List Nat).length ∧ wf [12345, 54321, 33333, 65535]
      ∧ wf [257, 40000]
      ∧ 32768 ≤ ([257, 40000] : List Nat).getD (([257, 40000] : List Nat).length - 1) 0) ∧
    (val ((mpi_moduu [12345, 54321, 33333, 65535] [257, 40000]).take 2)
        = val [12345, 54321, 33333, 65535] % val [257, 40000] ∧
      val ((mpi_moduu [12345, 54321, 33333, 65535] [257, 40000]).take 2)
        < val [257, 40000]) := by
  have h := C2_reduce_correct (a := [12345, 54321, 33333, 65535]) (b := [257, 40000])
    (by norm_num) (by norm_num) (by decide) (by decide) (by norm_num)
  exact ⟨⟨by norm_num, by norm_num, by decide, by decide, by norm_num⟩, h.1, h.2⟩

/-- C9: after `mpi_moduu` the upper `N` words of the `2N`-word buffer are
all zero — the buffer holds the remainder zero-extended to double width. -/
theorem C9_upper_words_zero {a b : List Nat} (hla : a.length = 2 * b.length)
    (hN : 0 < b.length) (ha : wf a) (hbw : wf b)
    (hnorm : 32768 ≤ b.getD (b.length - 1) 0) :
    (mpi_moduu a b).drop b.length = List.replicate b.length 0 := by
  obtain ⟨_, _, _, _, h⟩ := mpi_moduu_spec hla hN ha hbw hnorm
  exact h

/-- Witness for C9 at a concrete input (`N = 2`). -/
theorem C9_witness :
    (([9999, 1, 65535, 32769] : List Nat).length = 2 * ([65535, 65535] : List Nat).length
      ∧ 0 < ([65535, 65535] : List Nat).length ∧ wf [9999, 1, 65535, 32769]
      ∧ wf [65535, 65535]
      ∧ 32768 ≤ ([65535, 65535] : List Nat).getD (([65535, 65535] : List Nat).length - 1) 0) ∧
    (mpi_moduu [9999, 1, 65535, 32769] [65535, 65535]).drop 2 = List.replicate 2 0 := by
  have h := C9_upper_words_zero (a := [9999, 1, 65535, 32769]) (b := [65535, 65535])
    (by norm_num) (by norm_num) (by decide) (by decide) (by norm_num)
  exact ⟨⟨by norm_num, by norm_num, by decide, by decide, by norm_num⟩, h⟩

/-- C8: reducing an already-reduced value (`< b`, zero-extended to double
width) modulo `b` returns it unchanged: the low `N` words still hold
exactly `v`. -/
theorem C8_reduce_idempotent {v b : List Nat} (hlen : v.length = b.length)
    (hN : 0 < b.length) (hv : wf v) (hbw : wf b)
    (hnorm : 32768 ≤ b.getD (b.length - 1) 0) (hlt : val v < val b) :
    (mpi_moduu (v ++ List.replicate b.length 0) b).take b.length = v := by
  have hla : (v ++ List.replicate b.length 0).length = 2 * b.length := by
    rw [List.length_append, hlen, List.length_replicate]
    omega
  have hwa : wf (v ++ List.replicate b.length 0) :=
    wf_append hv (wf_replicate_zero _)
  obtain ⟨hL, hW, h1, h2, _⟩ := mpi_moduu_spec hla hN hwa hbw hnorm
  have hva : val (v ++ List.replicate b.length 0) = val v := by
    rw [val_append, val_replicate_zero]
    ring
  rw [hva, Nat.mod_eq_of_lt hlt] at h1
  apply val_inj (wf_take hW _) hv
  · rw [List.length_take, hL, hlen]
    omega
  · exact h1

/-- Witness for C8 at a concrete input (`N = 2`). -/
theorem C8_witness :
    (([123, 456] : List Nat).length = ([257, 40000] : List Nat).length
      ∧ 0 < ([257, 40000] : List Nat).length ∧ wf [123, 456] ∧ wf [257, 40000]
      ∧ 32768 ≤ ([257, 40000] : List Nat).getD (([257, 40000] : List Nat).length - 1) 0
      ∧ val [123, 456] < val [257, 40000]) ∧
    (mpi_moduu ([123, 456] ++ List.replicate 2 0) [257, 40000]).take 2 = [123, 456] := by
  have h := C8_reduce_idempotent (v := [123, 456]) (b := [257, 40000])
    (by norm_num) (by norm_num) (by decide) (by decide) (by norm_num) (by decide)
  exact ⟨⟨by norm_num, by norm_num, by decide, by decide, by norm_num, by decide⟩, h⟩

/-!  ### Modular exponentiation: mpi_powm65537 (rsa.c lines 245-261)

The C function keeps a single-size working buffer `bufmod` (initialized from
`m`), squares it into the double-size buffer `bufprod`, reduces modulo `n`,
and copies the low `N` words back, 16 times; then multiplies by the original
`m`, reduces, and copies the low `N` words into `m`.  `memcpy(...,
MPI_NUMBER_SIZE*2)` copies `MPI_NUMBER_SIZE*2` BYTES, i.e. `N` 16-bit
words. -/

/-- One squaring round of the loop in `mpi_powm65537` (rsa.c lines 253-255):
`mpi_muluu(bufprod, bufmod, bufmod); mpi_moduu(bufprod, n);
memcpy(bufmod, bufprod, N words)`. -/
def powmRound (n bufmod : List Nat) : List Nat :=
  (mpi_moduu (mpi_muluu bufmod bufmod) n).take n.length

/-- The 16-iteration square-and-reduce loop of `mpi_powm65537`
(rsa.c lines 251-256), with the iteration count explicit. -/
def powmLoop (n bufmod : List Nat) : Nat → List Nat
  | 0 => bufmod
  | count + 1 => powmLoop n (powmRound n bufmod) count

/-- `mpi_powm65537` (rsa.c lines 245-261): 16 square-and-reduce rounds, then
a final multiplication by the original `m` and reduction; the low `N` words
of the product buffer are copied back into `m`. -/
def mpi_powm65537 (m n : List Nat) : List Nat :=
  let bufmod := powmLoop n m 16
  (mpi_moduu (mpi_muluu bufmod m) n).take n.length

/-- One squaring round computes the square of the working value mod `n`. -/
theorem powmRound_spec {n : List Nat} (hN : 0 < n.length) (hn : wf n)
    (hnorm : 32768 ≤ n.getD (n.length - 1) 0)
    {bufmod : List Nat} (hlen : bufmod.length = n.length) (hw : wf bufmod) :
    (powmRound n bufmod).length = n.length ∧ wf (powmRound n bufmod) ∧
    val (powmRound n bufmod) = val bufmod * val bufmod % val n := by
  obtain ⟨hml, hmw, hmv⟩ := mpi_muluu_spec (a := bufmod) (b := bufmod) (by omega) rfl hw hw
  have hml2 : (mpi_muluu bufmod bufmod).length = 2 * n.length := by omega
  obtain ⟨hL, hW, hv, _, _⟩ := mpi_moduu_spec hml2 hN hmw hn hnorm
  refine ⟨?_, wf_take hW _, ?_⟩
  · show ((mpi_moduu (mpi_muluu bufmod bufmod) n).take n.length).length = n.length
    rw [List.length_take, hL]
    omega
  · show val ((mpi_moduu (mpi_muluu bufmod bufmod) n).take n.length)
      = val bufmod * val bufmod % val n
    rw [hv, hmv]

/-- After `count ≥ 1` rounds the working value is the original raised to the
`2 ^ count` power, mod `n`. -/
theorem powmLoop_spec {n : List Nat} (hN : 0 < n.length) (hn : wf n)
    (hnorm : 32768 ≤ n.getD (n.length - 1) 0)
    (count : Nat) {bufmod : List Nat} (hlen : bufmod.length = n.length)
    (hw : wf bufmod) :
    (powmLoop n bufmod count).length = n.length ∧ wf (powmLoop n bufmod count) ∧
    (0 < count →
      val (powmLoop n bufmod count) = (val bufmod) ^ (2 ^ count) % val n) := by
  induction count generalizing bufmod with
  | zero => exact ⟨hlen, hw, fun h => absurd h (by omega)⟩
  | succ k ih =>
    obtain ⟨hrl, hrw, hrv⟩ := powmRound_spec hN hn hnorm hlen hw
    obtain ⟨hl, hw2, hv⟩ := ih hrl hrw
    refine ⟨hl, hw2, fun _ => ?_⟩
    cases Nat.eq_zero_or_pos k with
    | inl h0 =>
      subst h0
      show val (powmRound n bufmod) = val bufmod ^ 2 ^ 1 % val n
      rw [hrv, ← sq]
      norm_num
    | inr hpos =>
      have hv2 := hv hpos
      show val (powmLoop n (powmRound n bufmod) k) = val bufmod ^ 2 ^ (k + 1) % val n
      rw [hv2, hrv, ← Nat.pow_mod, ← sq, ← pow_mul]
      have h2 : 2 * 2 ^ k = 2 ^ (k + 1) := by rw [pow_succ]; ring
      rw [h2]

/-- C1: `mpi_powm65537` computes `m ^ 65537 mod n` (for a normalized modulus
`n`), producing a well-formed `N`-word result; in particular an input of
value 0 yields 0 and an input of value 1 yields 1. -/
theorem C1_powm_correct {m n : List Nat} (hlen : m.length = n.length)
    (hN : 0 < n.length) (hm : wf m) (hn : wf n)
    (hnorm : 32768 ≤ n.getD (n.length - 1) 0) :
    (mpi_powm65537 m n).length = n.length ∧ wf (mpi_powm65537 m n) ∧
    val (mpi_powm65537 m n) = val m ^ 65537 % val n ∧
    (val m = 0 → val (mpi_powm65537 m n) = 0) ∧
    (val m = 1 → val (mpi_powm65537 m n) = 1) := by
  obtain ⟨hl16, hw16, hv16⟩ :=
    powmLoop_spec hN hn hnorm 16 hlen hm
  have hv16p := hv16 (by norm_num)
  obtain ⟨hpl, hpw, hpv⟩ :=
    mpi_muluu_spec (a := powmLoop n m 16) (b := m) (by omega) (by omega) hw16 hm
  have hpl2 : (mpi_muluu (powmLoop n m 16) m).length = 2 * n.length := by omega
  obtain ⟨hL, hW, hv, _, _⟩ := mpi_moduu_spec hpl2 hN hpw hn hnorm
  have hdef : mpi_powm65537 m n
      = (mpi_moduu (mpi_muluu (powmLoop n m 16) m) n).take n.length := rfl
  have hval : val (mpi_powm65537 m n) = val m ^ 65537 % val n := by
    rw [hdef, hv, hpv, hv16p, Nat.mod_mul_mod, ← pow_succ]
    norm_num
  have hnbig : 1 < val n := by
    obtain ⟨_, _, hb3, _, _⟩ := val_b_bounds hn hN hnorm
    have hp : 1 ≤ 65536 ^ (n.length - 1) := Nat.one_le_pow _ _ (by norm_num)
    have := Nat.mul_le_mul_left 32768 hp
    omega
  refine ⟨?_, ?_, hval, ?_, ?_⟩
  · rw [hdef, List.length_take, hL]
    omega
  · rw [hdef]
    exact wf_take hW _
  · intro h0
    rw [hval, h0, zero_pow (by norm_num : (65537 : Nat) ≠ 0), Nat.zero_mod]
  · intro h1
    rw [hval, h1, one_pow, Nat.mod_eq_of_lt hnbig]

/-- Witness for C1 at a concrete input (`N = 1`, base 3, modulus 40000). -/
theorem C1_witness :
    (([3] : List Nat).length = ([40000] : List Nat).length
      ∧ 0 < ([40000] : List Nat).length ∧ wf [3] ∧ wf [40000]
      ∧ 32768 ≤ ([40000] : List Nat).getD (([40000] : List Nat).length - 1) 0) ∧
    val (mpi_powm65537 [3] [40000]) = val [3] ^ 65537 % val [40000] := by
  have h := C1_powm_correct (m := [3]) (n := [40000])
    rfl (by norm_num) (by decide) (by decide) (by norm_num)
  exact ⟨⟨rfl, by norm_num, by decide, by decide, by norm_num⟩, h.2.2.1⟩

end Rsa
